import Mathlib

/-!
Verification of the `react-native-sse` EventSource implementation
(`src/EventSource.js`).

Strings of the JavaScript source are modelled as `List Char`; JavaScript
string operations (`substr`, `split`, `lastIndexOf`, the trimming regex,
`parseInt`) are embedded as executable functions on `List Char`.  The
stateful `EventSource` class is embedded as explicit state records with
transition functions returning the new state together with the list of
`dispatch` calls they perform.
-/

namespace RNSSE

/-- Characters matched by the JavaScript regex class `\s` (plus ` `,
which the source adds explicitly although `\s` already contains it). -/
def jsWs (c : Char) : Bool :=
  let n := c.toNat
  (n == 32) || (Nat.ble 9 n && Nat.ble n 13) || (n == 160) || (n == 5760) ||
  (Nat.ble 8192 n && Nat.ble n 8202) || (n == 8232) || (n == 8233) ||
  (n == 8239) || (n == 8287) || (n == 12288) || (n == 65279)

/-- Embedding of `line.replace(/^(\s| )+|(\s| )+$/g, '')`:
strip leading and trailing runs of JavaScript whitespace. -/
def trimLine (s : List Char) : List Char :=
  ((s.dropWhile jsWs).reverse.dropWhile jsWs).reverse

/-- Embedding of JavaScript `String.prototype.split('\n')`.
`splitNl [] = [[]]`, matching `''.split('\n') === ['']`. -/
def splitNl : List Char → List (List Char)
  | [] => [[]]
  | c :: rest =>
    if c = '\n' then [] :: splitNl rest
    else
      match splitNl rest with
      | [] => [[c]]
      | l :: ls => (c :: l) :: ls

/-- The string `"\n\n"` occurs in `s` at index `i`. -/
def isNlNlAt (s : List Char) (i : Nat) : Prop :=
  ['\n', '\n'].IsPrefix (s.drop i)

instance (s : List Char) (i : Nat) : Decidable (isNlNlAt s i) := by
  unfold isNlNlAt
  infer_instance

/-- Embedding of `response.lastIndexOf('\n\n')`: the greatest index at which
`"\n\n"` occurs, or `none` when it does not occur. -/
def lastNlNl : List Char → Option Nat
  | [] => none
  | c :: rest =>
    match lastNlNl rest with
    | some i => some (i + 1)
    | none =>
      if c = '\n' ∧ rest.head? = some '\n' then some 0 else none

/-- Embedding of `line.replace(/FIELD:?\s*/, '')` for a line known to start
with `FIELD`: drop the field name, one optional colon, and the following
whitespace run. -/
def stripField (field : List Char) (l : List Char) : List Char :=
  let r := l.drop field.length
  let r := match r with
    | ':' :: t => t
    | r => r
  r.dropWhile jsWs

/-- Embedding of JavaScript `parseInt(s, 10)`: skip leading whitespace, an
optional sign, then the longest digit run; `none` when no digit is found
(`NaN`). -/
def jsParseInt10 (s : List Char) : Option Int :=
  let s := s.dropWhile jsWs
  let (sign, s) : Int × List Char :=
    if s.head? = some '-' then (-1, s.tail)
    else if s.head? = some '+' then (1, s.tail)
    else (1, s)
  let digits := s.takeWhile Char.isDigit
  if digits = [] then none
  else some (sign * (digits.foldl (fun a c => a * 10 + (c.toNat - 48)) 0 : Nat))

/-- The decimal value of a digit string, as accumulated by `jsParseInt10`. -/
def decDigitsVal (digits : List Char) : Nat :=
  digits.foldl (fun a c => a * 10 + (c.toNat - 48)) 0

/-- The sign factor of an optionally signed decimal string. -/
def signVal (sign : List Char) : Int :=
  if sign = ['-'] then -1 else 1

/-- Embedding of `data.join("\n")`. -/
def joinNl : List (List Char) → List Char
  | [] => []
  | [l] => l
  | l :: ls => l ++ '\n' :: joinNl ls

/-- Payloads passed to `dispatch`.  `sse` is the event object built at an
empty-line terminator in `_handleEvent`; the others are the fixed payloads
built by the connection controller. -/
inductive ESEvent where
  | openEv : ESEvent
  | closeEv : ESEvent
  | errorEv (message : List Char) (xhrStatus : Int) (xhrState : Nat) : ESEvent
  | timeoutEv : ESEvent
  | exceptionEv (message : List Char) : ESEvent
  | sse (type : List Char) (data : List Char) (lastEventId : Option (List Char))
      (url : List Char) : ESEvent
  deriving DecidableEq, Repr

/-- A `dispatch(type, data)` call: the type tag together with the payload. -/
abbrev Dispatch := List Char × ESEvent

/-- The instance fields of `EventSource` read and written by `_handleEvent`:
`lastIndexProcessed`, `eventType` (JavaScript `undefined` is `none`),
`lastEventId` (`null` is `none`) and `interval`. -/
@[ext]
structure PState where
  lastIndexProcessed : Nat
  eventType : Option (List Char)
  lastEventId : Option (List Char)
  interval : Int
  deriving DecidableEq, Repr

/-- The event type used at emission: `this.eventType || 'message'`
(JavaScript `||`, so both `undefined` and the empty string fall back). -/
def emitType (eventType : Option (List Char)) : List Char :=
  match eventType with
  | some e => if e = [] then "message".toList else e
  | none => "message".toList

/-- One iteration of the `for` loop body of `_handleEvent`: classify the
trimmed line and update the persistent state, the local `data` accumulator,
and possibly dispatch one event. -/
def processLine (url : List Char) (st : PState) (data : List (List Char))
    (raw : List Char) : PState × List (List Char) × List Dispatch :=
  let line := trimLine raw
  if "event".toList.isPrefixOf line then
    ({ st with eventType := some (stripField "event".toList line) }, data, [])
  else if "retry".toList.isPrefixOf line then
    match jsParseInt10 (stripField "retry".toList line) with
    | some n => ({ st with interval := n }, data, [])
    | none => (st, data, [])
  else if "data".toList.isPrefixOf line then
    (st, data ++ [stripField "data".toList line], [])
  else if "id:".toList.isPrefixOf line then
    ({ st with lastEventId := some (stripField "id".toList line) }, data, [])
  else if "id".toList.isPrefixOf line then
    ({ st with lastEventId := none }, data, [])
  else if line = [] then
    if data ≠ [] then
      let t := emitType st.eventType
      ({ st with eventType := none }, [],
        [(t, ESEvent.sse t (joinNl data) st.lastEventId url)])
    else (st, data, [])
  else (st, data, [])

/-- The whole `for` loop of `_handleEvent`, threading the state and the local
`data` accumulator through the split lines and concatenating dispatches. -/
def processLines (url : List Char) (st : PState) (data : List (List Char)) :
    List (List Char) → PState × List (List Char) × List Dispatch
  | [] => (st, data, [])
  | p :: ps =>
    let (st', data', evs) := processLine url st data p
    let (st'', data'', evs') := processLines url st' data' ps
    (st'', data'', evs ++ evs')

/-- Embedding of `_handleEvent(response)`: split the unprocessed suffix into
lines, advance `lastIndexProcessed` to just past the last `"\n\n"` of the
cumulative response when one exists, and run the loop with a fresh `data`
accumulator (`retry` is a loop-local in the source and carries no state). -/
def handleEvent (url : List Char) (st : PState) (response : List Char) :
    PState × List Dispatch :=
  let parts := splitNl (response.drop st.lastIndexProcessed)
  let st₁ :=
    match lastNlNl response with
    | some i => { st with lastIndexProcessed := i + 2 }
    | none => st
  ((processLines url st₁ [] parts).1, (processLines url st₁ [] parts).2.2)

/-- Calling `_handleEvent` on each successive cumulative response text of a
connection attempt, threading the state and collecting all dispatches. -/
def handleChunks (url : List Char) (st : PState) :
    List (List Char) → PState × List Dispatch
  | [] => (st, [])
  | r :: rs =>
    let (st', evs) := handleEvent url st r
    let (st'', evs') := handleChunks url st' rs
    (st'', evs ++ evs')

/-- A fresh parser state at the start of a connection attempt (`open()` sets
`lastIndexProcessed = 0`); `eventType`, `lastEventId` and `interval` are the
given carried-over values. -/
def freshPState (eventType lastEventId : Option (List Char)) (interval : Int) :
    PState :=
  { lastIndexProcessed := 0, eventType := eventType,
    lastEventId := lastEventId, interval := interval }

/-! ### Connection controller -/

/-- Class-level status constants of `EventSource`. -/
def ERROR : Int := -1

/-- Status constant `CONNECTING = 0`. -/
def CONNECTING : Int := 0

/-- Status constant `OPEN = 1`. -/
def OPEN : Int := 1

/-- Status constant `CLOSED = 2`. -/
def CLOSED : Int := 2

/-- The `XMLHttpRequest` ready-state constants used by the source. -/
def XHR_LOADING : Nat := 3

/-- Ready-state constant `XMLHttpRequest.DONE`. -/
def XHR_DONE : Nat := 4

/-- Connection-level state of an `EventSource` instance: the status, the
parser fields, whether a reconnection timer is pending (`_pollTimer`),
whether a transport request object exists (`_xhr !== null`), and the
configuration fields consulted by `open()`. -/
structure Conn where
  status : Int
  parser : PState
  pollTimerPending : Bool
  xhrActive : Bool
  url : List Char
  method : List Char
  headers : List (List Char × List Char)
  timeout : Int
  withCredentials : Bool
  body : Option (List Char)
  deriving DecidableEq, Repr

/-- The request issued by a successful `open()`: method, url, the ordered
request headers, timeout, credentials flag and body. -/
structure Request where
  method : List Char
  url : List Char
  headers : List (List Char × List Char)
  timeout : Int
  withCredentials : Bool
  body : Option (List Char)
  deriving DecidableEq, Repr

/-- Embedding of `_pollAgain(time, allowZero)`: schedule the reconnection
timer only when `time > 0 || allowZero`. -/
def pollAgain (c : Conn) (time : Int) (allowZero : Bool) : Conn :=
  if time > 0 ∨ allowZero then { c with pollTimerPending := true } else c

/-- The request headers set by `open()`, in source order: the three fixed
headers, then the user headers, then `Last-Event-ID` when `lastEventId`
is not null. -/
def openHeaders (c : Conn) : List (List Char × List Char) :=
  [("Accept".toList, "text/event-stream".toList),
   ("Cache-Control".toList, "no-cache".toList),
   ("X-Requested-With".toList, "XMLHttpRequest".toList)] ++
  c.headers ++
  (match c.parser.lastEventId with
   | some v => [("Last-Event-ID".toList, v)]
   | none => [])

/-- Embedding of `open()`.  The body first resets `lastIndexProcessed` and
sets status `CONNECTING`, then establishes the request; `failure = some msg`
models a synchronous exception (with message `msg`) thrown while
establishing it, which the `catch` block turns into status `ERROR` plus one
dispatched `error` event with an exception payload.  The returned `Request`
is the issued request, `none` when establishing it failed. -/
def openConn (c : Conn) (failure : Option (List Char)) :
    Conn × List Dispatch × Option Request :=
  let c₁ := { c with parser := { c.parser with lastIndexProcessed := 0 },
                     status := CONNECTING }
  match failure with
  | some msg =>
    ({ c₁ with status := ERROR },
     [("error".toList, ESEvent.exceptionEv msg)], none)
  | none =>
    ({ c₁ with xhrActive := true }, [],
     some { method := c.method, url := c.url, headers := openHeaders c,
            timeout := c.timeout, withCredentials := c.withCredentials,
            body := c.body })

/-- Embedding of `close()`: set status `CLOSED`, clear the poll timer, abort
the request when one exists, and dispatch one `close` event.  The `Bool`
result records whether `abort()` was invoked (`this._xhr` non-null). -/
def closeConn (c : Conn) : Conn × Bool × List Dispatch :=
  ({ c with status := CLOSED, pollTimerPending := false },
   c.xhrActive, [("close".toList, ESEvent.closeEv)])

/-- Embedding of the `onreadystatechange` callback installed by `open()`,
taking the transport-reported ready state, HTTP status and cumulative
response text as inputs. -/
def onReadyStateChange (c : Conn) (readyState : Nat) (xhrStatus : Int)
    (responseText : List Char) : Conn × List Dispatch :=
  if c.status = CLOSED then (c, [])
  else if readyState ≠ XHR_DONE ∧ readyState ≠ XHR_LOADING then (c, [])
  else if 200 ≤ xhrStatus ∧ xhrStatus < 400 then
    let (c₁, evs₁) :=
      if c.status = CONNECTING then
        ({ c with status := OPEN }, [("open".toList, ESEvent.openEv)])
      else (c, [])
    let (p', evs₂) := handleEvent c₁.url c₁.parser responseText
    let c₂ := { c₁ with parser := p' }
    let c₃ := if readyState = XHR_DONE then pollAgain c₂ c₂.parser.interval false
              else c₂
    (c₃, evs₁ ++ evs₂)
  else if xhrStatus ≠ 0 then
    let c₁ := { c with status := ERROR }
    let evs := [("error".toList,
                 ESEvent.errorEv responseText xhrStatus readyState)]
    let c₂ := if readyState = XHR_DONE then pollAgain c₁ c₁.parser.interval false
              else c₁
    (c₂, evs)
  else (c, [])

/-- Embedding of the `onerror` callback installed by `open()`. -/
def onXhrError (c : Conn) (responseText : List Char) (xhrStatus : Int)
    (readyState : Nat) : Conn × List Dispatch :=
  if c.status = CLOSED then (c, [])
  else ({ c with status := ERROR },
        [("error".toList, ESEvent.errorEv responseText xhrStatus readyState)])

/-- Asynchronous signals delivered to a connection by the host event loop:
transport callbacks, the reconnection timer firing, and a `close()` call. -/
inductive Sig where
  | rsc (readyState : Nat) (xhrStatus : Int) (responseText : List Char) : Sig
  | xhrErr (responseText : List Char) (xhrStatus : Int) (readyState : Nat) : Sig
  | timerFire : Sig
  | closeCall : Sig
  deriving DecidableEq, Repr

/-- One event-loop step.  A `timerFire` only does something when a timer is
pending, in which case it consumes the timer and runs `open()`; the `Nat`
counts the connection attempts (`open()` executions) the step performs. -/
def stepSig (c : Conn) : Sig → Conn × List Dispatch × Nat
  | Sig.rsc rs st text =>
    let (c', evs) := onReadyStateChange c rs st text
    (c', evs, 0)
  | Sig.xhrErr text st rs =>
    let (c', evs) := onXhrError c text st rs
    (c', evs, 0)
  | Sig.timerFire =>
    if c.pollTimerPending then
      let (c', evs, _) := openConn { c with pollTimerPending := false } none
      (c', evs, 1)
    else (c, [], 0)
  | Sig.closeCall =>
    let (c', _, evs) := closeConn c
    (c', evs, 0)

/-- Run a list of event-loop signals, collecting all dispatches and the
number of connection attempts performed. -/
def runSigs (c : Conn) : List Sig → Conn × List Dispatch × Nat
  | [] => (c, [], 0)
  | s :: ss =>
    let (c', evs, n) := stepSig c s
    let (c'', evs', n') := runSigs c' ss
    (c'', evs ++ evs', n + n')

/-- Embedding of the constructor effects relevant to scheduling (given a
valid url): initial status `CONNECTING`, fresh parser state with the
configured `pollingInterval`, and the initial open scheduled through
`_pollAgain(this.timeoutBeforeConnection, true)`. -/
def initConn (url method : List Char) (headers : List (List Char × List Char))
    (timeout : Int) (withCredentials : Bool) (body : Option (List Char))
    (pollingInterval : Int) (timeoutBeforeConnection : Int) : Conn :=
  let c : Conn :=
    { status := CONNECTING,
      parser := freshPState none none pollingInterval,
      pollTimerPending := false, xhrActive := false,
      url := url, method := method, headers := headers, timeout := timeout,
      withCredentials := withCredentials, body := body }
  pollAgain c timeoutBeforeConnection true

/-! ### Listener registry -/

/-- Listener handles; JavaScript function identity is abstracted as a
natural-number handle. -/
abbrev Listener := Nat

/-- The `eventHandlers` object: an insertion-ordered association list from
type tags to listener arrays (JavaScript object keys are unique). -/
structure Registry where
  entries : List (List Char × List Listener)
  deriving DecidableEq, Repr

/-- `Object.keys(this.eventHandlers)`. -/
def regKeys (r : Registry) : List (List Char) := r.entries.map (·.1)

/-- `this.eventHandlers[type]`, `none` when the key is absent. -/
def regLookup (r : Registry) (t : List Char) : Option (List Listener) :=
  match r.entries.find? (fun p => p.1 = t) with
  | some p => some p.2
  | none => none

/-- Set the value stored under the first occurrence of key `t`. -/
def setEntry (t : List Char) (v : List Listener) :
    List (List Char × List Listener) → List (List Char × List Listener)
  | [] => []
  | p :: ps => if p.1 = t then (t, v) :: ps else p :: setEntry t v ps

/-- The registry as seeded by the constructor. -/
def initRegistry : Registry :=
  { entries := [("open".toList, []), ("message".toList, []),
                ("error".toList, []), ("close".toList, [])] }

/-- Embedding of `addEventListener(type, listener)`: create the key with an
empty array when absent, then push. -/
def addEventListener (r : Registry) (t : List Char) (l : Listener) : Registry :=
  match regLookup r t with
  | none => { entries := r.entries ++ [(t, [l])] }
  | some ls => { entries := setEntry t (ls ++ [l]) r.entries }

/-- Embedding of `removeEventListener(type, listener)`: filter out the
handler when the key exists. -/
def removeEventListener (r : Registry) (t : List Char) (l : Listener) :
    Registry :=
  match regLookup r t with
  | none => r
  | some ls => { entries := setEntry t (ls.filter (fun h => h ≠ l)) r.entries }

/-- Embedding of `removeAllEventListeners(type)`:  with no argument, empty
every type's list; with an argument, throw (`Except.error` with the thrown
message) when the type is not a current key, else empty that type's list. -/
def removeAllEventListeners (r : Registry) (t : Option (List Char)) :
    Except (List Char) Registry :=
  match t with
  | none => Except.ok { entries := r.entries.map (fun p => (p.1, [])) }
  | some ty =>
    if ty ∈ regKeys r then Except.ok { entries := setEntry ty [] r.entries }
    else Except.error ("[EventSource] '".toList ++ ty ++
      "' type is not supported event type.".toList)

/-- Embedding of `dispatch(type, data)`: the ordered list of listener
handles invoked — unregistered types are silently dropped, registered ones
invoke every stored handler in order. -/
def dispatchInvocations (r : Registry) (t : List Char) : List Listener :=
  match regLookup r t with
  | some ls => ls
  | none => []

/-- A sample open connection used to instantiate theorems with hypotheses. -/
def connEx : Conn :=
  { status := OPEN, parser := freshPState none none 5000,
    pollTimerPending := true, xhrActive := true, url := "u".toList,
    method := "GET".toList, headers := [], timeout := 0,
    withCredentials := false, body := none }

/-- A raw line writes the reconnection interval exactly when its trimmed
form is `retry`-prefixed and its value parses to an integer. -/
def retryWrite (l : List Char) : Bool :=
  "retry".toList.isPrefixOf (trimLine l) &&
  !(jsParseInt10 (stripField ("retry".toList) (trimLine l))).isNone

/-- A response text none of whose suffixes contains an interval-writing
line, so feeding it to `_handleEvent` at any offset cannot change the
interval. -/
def retryFree (t : List Char) : Bool :=
  (List.range (t.length + 1)).all (fun o =>
    (splitNl (t.drop o)).all (fun l => !retryWrite l))

/-- A signal whose delivery cannot override the interval by a retry field. -/
def retryFreeSig : Sig → Bool
  | Sig.rsc _ _ text => retryFree text
  | _ => true

/-- A sample connection with reconnection disabled (`pollingInterval` 0)
whose initial open has already happened. -/
def connEx0 : Conn :=
  { status := OPEN, parser := freshPState none none 0,
    pollTimerPending := false, xhrActive := true, url := "u".toList,
    method := "GET".toList, headers := [], timeout := 0,
    withCredentials := false, body := none }

/-- A parser offset is valid for buffer `r` when it is the initial 0 or sits
immediately after an occurrence of `"\n\n"` already present in `r`. -/
def OffOk (off : Nat) (r : List Char) : Prop :=
  off = 0 ∨ (2 ≤ off ∧ isNlNlAt r (off - 2))

/-- Successive cumulative response texts: each is a prefix of the next. -/
def PrefixChain : List (List Char) → Prop
  | [] => True
  | [_] => True
  | a :: b :: rest => a <+: b ∧ PrefixChain (b :: rest)

/-- The offset behaviour of a sequence of `_handleEvent` calls on cumulative
buffers: after each call the offset follows the last-`"\n\n"` rule, never
decreases, stays within the buffer, and sits just past a seen record
terminator (or at 0). -/
def OffsetEvolution (url : List Char) : PState → List (List Char) → Prop
  | _, [] => True
  | st, r :: rs =>
    ((handleEvent url st r).1.lastIndexProcessed =
      match lastNlNl r with
      | some i => i + 2
      | none => st.lastIndexProcessed) ∧
    st.lastIndexProcessed ≤ (handleEvent url st r).1.lastIndexProcessed ∧
    (handleEvent url st r).1.lastIndexProcessed ≤ r.length ∧
    OffOk (handleEvent url st r).1.lastIndexProcessed r ∧
    OffsetEvolution url (handleEvent url st r).1 rs

/-- The trailing segment of a buffer after its last line feed (the whole
buffer when it contains none): the raw text of the unterminated last line. -/
def tailLine (p : List Char) : List Char :=
  (p.reverse.takeWhile (fun c => ¬(c = '\n'))).reverse

/-- The complement of `tailLine`: everything up to and including the last
line feed. -/
def headPart (p : List Char) : List Char :=
  (p.reverse.dropWhile (fun c => ¬(c = '\n'))).reverse

/-- A chunk boundary after which re-parsing is safe: the cumulative prefix
is empty, or its unterminated last line does not trim to empty, or it ends
exactly at a record terminator `"\n\n"`. -/
def GoodCut (p : List Char) : Prop :=
  p = [] ∨ trimLine (tailLine p) ≠ [] ∨ ['\n', '\n'] <:+ p

/-- A well-formed SSE payload: every line is either empty (a terminator or
blank) or a field line, which does not trim to whitespace-only. -/
def WellFormedSSE (s : List Char) : Prop :=
  ∀ l ∈ splitNl s, trimLine l = [] → l = []

instance (s : List Char) : Decidable (WellFormedSSE s) := by
  unfold WellFormedSSE
  infer_instance

/-- A `retry` line whose value parses writes the interval; the predicate
used to track interval changes across partial re-parses. -/
def writesInterval (raw : List Char) : Prop :=
  retryWrite raw = true

/-- Replace the `lastIndexProcessed` cursor of a parser state, keeping the
three content fields; the shape in which `_handleEvent` advances the
cursor before running the line loop. -/
def setOff (st : PState) (n : Nat) : PState :=
  { st with lastIndexProcessed := n }

/-! ### Registry lemmas -/

theorem find?_setEntry (t : List Char) (v : List Listener)
    (es : List (List Char × List Listener)) :
    (setEntry t v es).find? (fun p => p.1 = t) =
      match es.find? (fun p => p.1 = t) with
      | some _ => some (t, v)
      | none => none := by
  induction es with
  | nil => rfl
  | cons p ps ih =>
    by_cases h : p.1 = t
    · simp [setEntry, h, List.find?_cons_of_pos]
    · rw [setEntry]
      simp only [if_neg h]
      rw [List.find?_cons_of_neg, List.find?_cons_of_neg, ih] <;> simp [h]

theorem find?_setEntry_ne (t t' : List Char) (v : List Listener)
    (es : List (List Char × List Listener)) (h : t' ≠ t) :
    (setEntry t v es).find? (fun p => p.1 = t') =
      es.find? (fun p => p.1 = t') := by
  induction es with
  | nil => rfl
  | cons p ps ih =>
    by_cases hp : p.1 = t
    · have h1 : ¬(p.1 = t') := by rw [hp]; exact fun hh => h hh.symm
      have h2 : ¬(t = t') := fun hh => h hh.symm
      simp [setEntry, if_pos hp, List.find?_cons_of_neg, h1, h2]
    · rw [setEntry]
      simp only [if_neg hp]
      rw [List.find?_cons, List.find?_cons, ih]

theorem dispatchInvocations_addEventListener (r : Registry) (t : List Char)
    (l : Listener) :
    dispatchInvocations (addEventListener r t l) t =
      dispatchInvocations r t ++ [l] := by
  unfold addEventListener
  cases h : regLookup r t with
  | none =>
    unfold dispatchInvocations regLookup at *
    cases hf : r.entries.find? (fun p => p.1 = t) with
    | none =>
      simp only [List.find?_append, hf, Option.none_orElse]
      simp [List.find?_cons_of_pos]
    | some p => rw [hf] at h; simp at h
  | some ls =>
    unfold dispatchInvocations regLookup at *
    cases hf : r.entries.find? (fun p => p.1 = t) with
    | none => rw [hf] at h; simp at h
    | some p =>
      rw [hf] at h
      simp only [Option.some.injEq] at h
      simp [find?_setEntry, hf, h]

/-! ### Claim C8 -/

/-- C8 counterexample: registering the identical listener (handle 7) twice
for type `message` makes a single dispatch invoke it twice, not once, so
duplicate registration is not idempotent. -/
theorem addEventListener_duplicate_not_idempotent :
    (dispatchInvocations
      (addEventListener
        (addEventListener initRegistry ("message".toList) 7)
        ("message".toList) 7)
      ("message".toList)).count 7 = 2 ∧ ¬(2 : Nat) = 1 := by decide

/-- C8 (amended): registering the identical listener twice for the same type
appends it twice, and a single dispatch of that type invokes it once per
registration — exactly twice more than before the two registrations. -/
theorem addEventListener_duplicate_invokes_twice (r : Registry) (t : List Char)
    (l : Listener) :
    (dispatchInvocations (addEventListener (addEventListener r t l) t l) t).count l
      = (dispatchInvocations r t).count l + 2 := by
  rw [dispatchInvocations_addEventListener, dispatchInvocations_addEventListener]
  simp [List.count_append]

/-! ### Claim C10 -/

/-- C10: `removeAllEventListeners` with an unregistered type throws an
`Error` (the registry is untouched because the throw precedes any
assignment); with a registered type it empties exactly that type's listener
list and preserves every other type's list; with no argument it empties
every registered type's list without throwing. -/
theorem removeAllEventListeners_spec (r : Registry) (t : List Char) :
    (t ∉ regKeys r → ∃ msg, removeAllEventListeners r (some t) = Except.error msg) ∧
    (t ∈ regKeys r → ∃ r', removeAllEventListeners r (some t) = Except.ok r' ∧
      regLookup r' t = some [] ∧
      ∀ t', t' ≠ t → regLookup r' t' = regLookup r t') ∧
    (∃ r'', removeAllEventListeners r none = Except.ok r'' ∧
      ∀ t', regLookup r'' t' = (regLookup r t').map (fun _ => [])) := by
  refine ⟨fun hmem => ?_, fun hmem => ?_, ?_⟩
  · exact ⟨"[EventSource] '".toList ++ t ++
      "' type is not supported event type.".toList,
      by simp [removeAllEventListeners, hmem]⟩
  · refine ⟨⟨setEntry t [] r.entries⟩, by simp [removeAllEventListeners, hmem], ?_, ?_⟩
    · have : ∃ p, r.entries.find? (fun p => p.1 = t) = some p := by
        rw [← Option.isSome_iff_exists, List.find?_isSome]
        rcases List.mem_map.mp hmem with ⟨p, hp, hpt⟩
        exact ⟨p, hp, by simp [hpt]⟩
      rcases this with ⟨p, hp⟩
      simp [regLookup, find?_setEntry, hp]
    · intro t' ht'
      simp [regLookup, find?_setEntry_ne _ _ _ _ ht']
  · refine ⟨_, rfl, fun t' => ?_⟩
    have : (fun p : List Char × List Listener => decide (p.1 = t')) ∘
        (fun p : List Char × List Listener => (p.1, ([] : List Listener))) =
        (fun p : List Char × List Listener => decide (p.1 = t')) := rfl
    simp only [removeAllEventListeners, regLookup, List.find?_map, this]
    cases r.entries.find? (fun p => p.1 = t') <;> simp

/-- C10 witness: at the seeded registry, `message` is a registered key and
is emptied, while `nope` is unregistered and produces a thrown error. -/
theorem removeAllEventListeners_spec_witness :
    (∃ r', removeAllEventListeners initRegistry (some ("message".toList)) =
        Except.ok r' ∧ regLookup r' ("message".toList) = some [] ∧
        ∀ t', t' ≠ "message".toList →
          regLookup r' t' = regLookup initRegistry t') ∧
    (∃ msg, removeAllEventListeners initRegistry (some ("nope".toList)) =
        Except.error msg) :=
  ⟨(removeAllEventListeners_spec initRegistry ("message".toList)).2.1 (by decide),
   (removeAllEventListeners_spec initRegistry ("nope".toList)).1 (by decide)⟩

/-! ### Claim C9 -/

/-- C9: a synchronous exception raised while establishing the request in
`open()` is caught locally (the embedding `openConn` returns normally, so
nothing propagates to the caller): the status becomes `ERROR`, exactly one
`error` event with the exception payload is dispatched, and no request is
issued. -/
theorem openConn_exception_contained (c : Conn) (msg : List Char) :
    (openConn c (some msg)).1.status = ERROR ∧
    (openConn c (some msg)).2.1 = [("error".toList, ESEvent.exceptionEv msg)] ∧
    (openConn c (some msg)).2.2 = none := by
  refine ⟨rfl, rfl, rfl⟩

/-! ### Character class lemmas -/

theorem natBleFalse (m n : Nat) : (Nat.ble m n = false) ↔ n < m := by
  rw [Bool.eq_false_iff, ne_eq, Nat.ble_eq]
  omega

theorem toNat_range_of_isDigit (c : Char) (h : c.isDigit = true) :
    48 ≤ c.toNat ∧ c.toNat ≤ 57 := by
  unfold Char.isDigit at h
  simp at h
  exact ⟨h.1, h.2⟩

theorem jsWs_of_isDigit (c : Char) (h : c.isDigit = true) : jsWs c = false := by
  obtain ⟨h1, h2⟩ := toNat_range_of_isDigit c h
  simp only [jsWs, natBleFalse, Bool.or_eq_false_iff, Bool.and_eq_false_iff,
    beq_eq_false_iff_ne, ne_eq, not_le]
  omega

theorem ne_sign_of_isDigit (c : Char) (h : c.isDigit = true) :
    c ≠ '-' ∧ c ≠ '+' := by
  unfold Char.isDigit at h
  simp at h
  constructor <;> rintro rfl <;> simp_all

/-! ### Claim C6 -/

/-- C6: on every parsed `retry` line, when the value parses as a base-10
integer (JavaScript `parseInt(·, 10)`) the connection interval is replaced
by the parsed integer and nothing else changes; when parsing yields `NaN`
the whole state is unchanged.  The second part shows every optionally
signed digit string — a valid base-10 integer — parses to exactly its
decimal value, so such a value replaces the interval by that integer. -/
theorem retry_field_handling :
    (∀ url st data raw, "retry".toList.isPrefixOf (trimLine raw) = true →
      (∀ n, jsParseInt10 (stripField ("retry".toList) (trimLine raw)) = some n →
        processLine url st data raw = ({ st with interval := n }, data, [])) ∧
      (jsParseInt10 (stripField ("retry".toList) (trimLine raw)) = none →
        processLine url st data raw = (st, data, []))) ∧
    (∀ sign digits, (sign = [] ∨ sign = ['-'] ∨ sign = ['+']) → digits ≠ [] →
      (∀ c ∈ digits, c.isDigit = true) →
      jsParseInt10 (sign ++ digits) = some (signVal sign * decDigitsVal digits)) := by
  constructor
  · intro url st data raw hpre
    obtain ⟨rest, hrest⟩ := List.isPrefixOf_iff_prefix.mp hpre
    have hline : trimLine raw = 'r' :: 'e' :: 't' :: 'r' :: 'y' :: rest := by
      rw [← hrest]; rfl
    constructor
    · intro n hn
      simp [processLine, hline, List.isPrefixOf] at hn ⊢
      simp [hn]
    · intro hn
      simp [processLine, hline, List.isPrefixOf] at hn ⊢
      simp [hn]
  · intro sign digits hsign hne hdig
    have hwsm : jsWs '-' = false := by decide
    have hwsp : jsWs '+' = false := by decide
    have hdw : (sign ++ digits).dropWhile jsWs = sign ++ digits := by
      rcases hsign with rfl | rfl | rfl
      · cases digits with
        | nil => simp at hne
        | cons d ds =>
          simp [List.dropWhile_cons, jsWs_of_isDigit d (hdig d (by simp))]
      · simp [List.dropWhile_cons, hwsm]
      · simp [List.dropWhile_cons, hwsp]
    have htw : digits.takeWhile Char.isDigit = digits := by
      rw [List.takeWhile_eq_self_iff]
      exact hdig
    rcases hsign with rfl | rfl | rfl
    · cases digits with
      | nil => simp at hne
      | cons d ds =>
        obtain ⟨hd1, hd2⟩ := ne_sign_of_isDigit d (hdig d (by simp))
        simp only [List.nil_append] at hdw ⊢
        simp only [jsParseInt10, hdw, List.head?_cons, Option.some.injEq]
        rw [if_neg hd1, if_neg hd2, htw]
        rw [if_neg hne]
        simp [signVal, decDigitsVal]
    · simp only [List.singleton_append] at hdw ⊢
      simp only [jsParseInt10, hdw, List.head?_cons, Option.some.injEq]
      simp [htw, hne, signVal, decDigitsVal]
    · simp only [List.singleton_append] at hdw ⊢
      simp only [jsParseInt10, hdw, List.head?_cons, Option.some.injEq]
      simp [htw, hne, signVal, decDigitsVal]

/-- C6 witness: `retry: 100` replaces the interval by 100; `retry: x` leaves
the state unchanged; and `-42` is a valid base-10 integer parsing to -42. -/
theorem retry_field_handling_witness :
    processLine ("u".toList) (freshPState none none 5000) []
      ("retry: 100".toList) =
      ({ freshPState none none 5000 with interval := 100 }, [], []) ∧
    processLine ("u".toList) (freshPState none none 5000) []
      ("retry: x".toList) = (freshPState none none 5000, [], []) ∧
    jsParseInt10 ("-42".toList) = some (signVal ("-".toList) *
      decDigitsVal ("42".toList)) :=
  ⟨(retry_field_handling.1 ("u".toList) (freshPState none none 5000) []
      ("retry: 100".toList) (by decide)).1 100 (by decide),
   (retry_field_handling.1 ("u".toList) (freshPState none none 5000) []
      ("retry: x".toList) (by decide)).2 (by decide),
   retry_field_handling.2 ("-".toList) ("42".toList) (by decide) (by decide)
     (by decide)⟩

/-! ### Claim C4 -/

/-- C4 counterexample: a line `event:` sets the pending event type to the
empty string — a set pending type — yet the event emitted at the next
terminator is typed `message`, not the pending empty string, because the
source uses `this.eventType || 'message'` and the empty string is falsy. -/
theorem record_emission_empty_type_counterexample :
    (processLine ("u".toList) (freshPState none none 5000) []
      ("event:".toList)).1.eventType = some [] ∧
    (processLine ("u".toList)
      { lastIndexProcessed := 0, eventType := some [], lastEventId := none,
        interval := 5000 } ["x".toList] []).2.2 =
      [("message".toList,
        ESEvent.sse ("message".toList) ("x".toList) none ("u".toList))] ∧
    ¬("message".toList = ([] : List Char)) := by decide

/-- C4 (amended): at a line that trims to empty, a non-empty data
accumulator dispatches exactly one event whose type is the pending event
type — or `message` when none was set or the pending type is the empty
string — whose data joins the accumulated lines with `"\n"` in order,
carrying the current `lastEventId` and url, and clears the pending type and
accumulator; with an empty accumulator nothing is dispatched or changed. -/
theorem record_emission (url : List Char) (st : PState) (data : List (List Char))
    (raw : List Char) (h : trimLine raw = []) :
    (data ≠ [] → processLine url st data raw = ({ st with eventType := none }, [],
      [(emitType st.eventType,
        ESEvent.sse (emitType st.eventType) (joinNl data) st.lastEventId url)])) ∧
    (data = [] → processLine url st data raw = (st, data, [])) ∧
    emitType none = "message".toList ∧ emitType (some []) = "message".toList ∧
    ∀ t, t ≠ [] → emitType (some t) = t := by
  refine ⟨?_, ?_, rfl, rfl, ?_⟩
  · intro hd
    simp [processLine, h, List.isPrefixOf, hd]
  · intro hd
    simp [processLine, h, List.isPrefixOf, hd]
  · intro t ht
    simp [emitType, ht]

/-- C4 witness: at an empty line with accumulator `["l1", "l2"]`, pending
type unset and last event id `"5"`, exactly one `message` event with data
`"l1\nl2"` and id `"5"` is dispatched and the accumulator is cleared. -/
theorem record_emission_witness :
    processLine ("u".toList) (freshPState none (some ("5".toList)) 5000)
      ["l1".toList, "l2".toList] [] =
      ({ freshPState none (some ("5".toList)) 5000 with eventType := none }, [],
       [("message".toList,
         ESEvent.sse ("message".toList) ("l1\nl2".toList)
           (some ("5".toList)) ("u".toList))]) := by
  have h := (record_emission ("u".toList)
    (freshPState none (some ("5".toList)) 5000)
    ["l1".toList, "l2".toList] [] rfl).1 (by decide)
  exact h

/-! ### Claim C5 -/

theorem dropWhile_append_ws (w v : List Char) (hw : ∀ c ∈ w, jsWs c = true) :
    (w ++ v).dropWhile jsWs = v.dropWhile jsWs := by
  induction w with
  | nil => rfl
  | cons c cs ih =>
    simp only [List.cons_append, List.dropWhile_cons, hw c (by simp)]
    exact ih (fun c hc => hw c (by simp [hc]))

theorem dropWhile_ws_of_head (v : List Char)
    (hv : ∀ c, v.head? = some c → jsWs c = false) :
    v.dropWhile jsWs = v := by
  cases v with
  | nil => rfl
  | cons c cs => simp [List.dropWhile_cons, hv c (by simp)]

/-- C5: the `lastEventId` lifecycle.  A line `id: value` sets `lastEventId`
to the value after the field marker; a bare `id` line resets it to null;
every event emitted at a terminator carries the current `lastEventId`;
`open()` — including the reconnection timer path — never changes
`lastEventId`; and whenever `open()` issues a request while `lastEventId`
is non-null, that request carries a `Last-Event-ID` header equal to it. -/
theorem lastEventId_lifecycle :
    (∀ url st data raw w v, trimLine raw = "id:".toList ++ w ++ v →
      (∀ c ∈ w, jsWs c = true) → v ≠ [] →
      (∀ c, v.head? = some c → jsWs c = false) →
      processLine url st data raw =
        ({ st with lastEventId := some v }, data, [])) ∧
    (∀ url st data raw, trimLine raw = "id".toList →
      processLine url st data raw = ({ st with lastEventId := none }, data, [])) ∧
    (∀ url st data raw, trimLine raw = [] → data ≠ [] →
      processLine url st data raw = ({ st with eventType := none }, [],
        [(emitType st.eventType,
          ESEvent.sse (emitType st.eventType) (joinNl data) st.lastEventId url)])) ∧
    (∀ c failure, (openConn c failure).1.parser.lastEventId =
      c.parser.lastEventId) ∧
    (∀ c, c.pollTimerPending = true →
      (stepSig c Sig.timerFire).1.parser.lastEventId = c.parser.lastEventId) ∧
    (∀ c v, c.parser.lastEventId = some v →
      ∃ req, (openConn c none).2.2 = some req ∧
        ("Last-Event-ID".toList, v) ∈ req.headers) := by
  refine ⟨?_, ?_, ?_, ?_, ?_, ?_⟩
  · intro url st data raw w v hline hw hv hvh
    have hl : trimLine raw = 'i' :: 'd' :: ':' :: (w ++ v) := by
      rw [hline]; rfl
    simp only [processLine, hl, List.isPrefixOf]
    simp only [stripField]
    simp [dropWhile_append_ws w v hw, dropWhile_ws_of_head v hvh]
  · intro url st data raw hline
    simp [processLine, hline, List.isPrefixOf]
  · intro url st data raw hline hd
    simp [processLine, hline, List.isPrefixOf, hd]
  · intro c failure
    cases failure <;> rfl
  · intro c hp
    simp [stepSig, hp, openConn]
  · intro c v hv
    refine ⟨_, rfl, ?_⟩
    simp [openConn, openHeaders, hv]

/-- C5 witness: concrete checks of each part — `id: 5` sets the id, bare
`id` clears it, an emitted event carries the current id, `open()` preserves
it and sends it as a `Last-Event-ID` header. -/
theorem lastEventId_lifecycle_witness :
    processLine ("u".toList) (freshPState none none 5000) [] ("id: 5".toList) =
      ({ freshPState none none 5000 with lastEventId := some ("5".toList) },
        [], []) ∧
    processLine ("u".toList) (freshPState none (some ("5".toList)) 5000) []
      ("id".toList) =
      ({ freshPState none (some ("5".toList)) 5000 with lastEventId := none },
        [], []) := by
  constructor
  · have h := lastEventId_lifecycle.1 ("u".toList) (freshPState none none 5000)
      [] ("id: 5".toList) [' '] ("5".toList) (by decide) (by decide) (by decide)
      (by decide)
    exact h
  · exact lastEventId_lifecycle.2.1 ("u".toList)
      (freshPState none (some ("5".toList)) 5000) [] ("id".toList) (by decide)

/-! ### Claim C2 -/

theorem stepSig_closed (c : Conn) (s : Sig) (hs : c.status = CLOSED)
    (hp : c.pollTimerPending = false) :
    (stepSig c s).1.status = CLOSED ∧ (stepSig c s).1.pollTimerPending = false ∧
    (stepSig c s).2.1.filter (fun d => d.1 ≠ "close".toList) = [] := by
  cases s with
  | rsc rs st text => simp [stepSig, onReadyStateChange, hs, hp]
  | xhrErr text st rs => simp [stepSig, onXhrError, hs, hp]
  | timerFire => simp [stepSig, hp, hs]
  | closeCall => simp [stepSig, closeConn]

theorem runSigs_closed (c : Conn) (sigs : List Sig) (hs : c.status = CLOSED)
    (hp : c.pollTimerPending = false) :
    (runSigs c sigs).2.1.filter (fun d => d.1 ≠ "close".toList) = [] := by
  induction sigs generalizing c with
  | nil => simp [runSigs]
  | cons s ss ih =>
    obtain ⟨h1, h2, h3⟩ := stepSig_closed c s hs hp
    simp only [runSigs, List.filter_append]
    rw [h3, ih (stepSig c s).1 h1 h2]
    rfl

/-- C2: `close()` from any state sets status `CLOSED`, cancels the pending
reconnection timer, aborts the in-flight request when one exists, and
dispatches exactly one `close` event; afterwards no `open`, `message`,
`error` or custom event is ever dispatched, whatever transport callbacks
(`onreadystatechange`, `onerror`), timer firings or further `close()` calls
arrive later — every later dispatch carries the `close` tag. -/
theorem close_terminal (c : Conn) (sigs : List Sig) :
    (closeConn c).1.status = CLOSED ∧
    (closeConn c).1.pollTimerPending = false ∧
    (c.xhrActive = true → (closeConn c).2.1 = true) ∧
    (closeConn c).2.2 = [("close".toList, ESEvent.closeEv)] ∧
    (runSigs (closeConn c).1 sigs).2.1.filter
      (fun d => d.1 ≠ "close".toList) = [] :=
  ⟨rfl, rfl, fun h => h, rfl, runSigs_closed (closeConn c).1 sigs rfl rfl⟩

/-- C2 witness: closing a live open connection (active request, pending
timer) dispatches one `close` event and aborts; a later success callback
carrying a full event record, a transport error and a timer firing all
dispatch nothing but `close`-tagged events (in fact nothing at all). -/
theorem close_terminal_witness :
    (closeConn connEx).1.status = CLOSED ∧
    (closeConn connEx).1.pollTimerPending = false ∧
    (closeConn connEx).2.1 = true ∧
    (closeConn connEx).2.2 = [("close".toList, ESEvent.closeEv)] ∧
    (runSigs (closeConn connEx).1
      [Sig.rsc 4 200 ("data: a\n\n".toList), Sig.xhrErr [] 0 4,
       Sig.timerFire, Sig.closeCall]).2.1.filter
      (fun d => d.1 ≠ "close".toList) = [] := by
  obtain ⟨h1, h2, h3, h4, h5⟩ := close_terminal connEx
    [Sig.rsc 4 200 ("data: a\n\n".toList), Sig.xhrErr [] 0 4,
     Sig.timerFire, Sig.closeCall]
  exact ⟨h1, h2, h3 rfl, h4, h5⟩

/-! ### Claim C7 -/

theorem processLine_interval (url : List Char) (st : PState)
    (data : List (List Char)) (raw : List Char) (h : retryWrite raw = false) :
    (processLine url st data raw).1.interval = st.interval := by
  have hstr : "retry".toList = ['r', 'e', 't', 'r', 'y'] := rfl
  by_cases h1 : ['e', 'v', 'e', 'n', 't'] <+: trimLine raw
  · simp [processLine, h1]
  by_cases h2 : ['r', 'e', 't', 'r', 'y'] <+: trimLine raw
  · have hnone : jsParseInt10 (stripField ("retry".toList) (trimLine raw)) =
        none := by
      unfold retryWrite at h
      rw [Bool.and_eq_false_iff, hstr] at h
      rcases h with h | h
      · have h2' := List.isPrefixOf_iff_prefix.mpr h2
        rw [h] at h2'
        simp at h2'
      · simpa [Option.isNone_iff_eq_none] using h
    rw [hstr] at hnone
    simp [processLine, h1, h2, hnone]
  by_cases h3 : ['d', 'a', 't', 'a'] <+: trimLine raw
  · simp [processLine, h1, h2, h3]
  by_cases h4 : ['i', 'd', ':'] <+: trimLine raw
  · simp [processLine, h1, h2, h3, h4]
  by_cases h5 : ['i', 'd'] <+: trimLine raw
  · simp [processLine, h1, h2, h3, h4, h5]
  by_cases h6 : trimLine raw = []
  · by_cases h7 : data = []
    · simp [processLine, h1, h2, h3, h4, h5, h6, h7]
    · simp [processLine, h1, h2, h3, h4, h5, h6, h7]
  · simp [processLine, h1, h2, h3, h4, h5, h6]

theorem processLines_interval (url : List Char) (st : PState)
    (data : List (List Char)) (parts : List (List Char))
    (h : ∀ l ∈ parts, retryWrite l = false) :
    (processLines url st data parts).1.interval = st.interval := by
  induction parts generalizing st data with
  | nil => rfl
  | cons p ps ih =>
    simp only [processLines]
    rw [ih _ _ (fun l hl => h l (by simp [hl]))]
    exact processLine_interval url st data p (h p (by simp))

theorem handleEvent_interval (url : List Char) (st : PState) (r : List Char)
    (h : retryFree r = true) :
    (handleEvent url st r).1.interval = st.interval := by
  have key : ∀ l ∈ splitNl (r.drop st.lastIndexProcessed),
      retryWrite l = false := by
    intro l hl
    unfold retryFree at h
    rw [List.all_eq_true] at h
    rcases le_or_lt st.lastIndexProcessed r.length with ho | ho
    · have h2 := h st.lastIndexProcessed (by rw [List.mem_range]; omega)
      rw [List.all_eq_true] at h2
      simpa using h2 l hl
    · have hdrop : r.drop st.lastIndexProcessed = r.drop r.length := by
        rw [List.drop_length, List.drop_eq_nil_iff]
        omega
      have h2 := h r.length (by rw [List.mem_range]; omega)
      rw [List.all_eq_true] at h2
      rw [hdrop] at hl
      simpa using h2 l hl
  unfold handleEvent
  cases hnl : lastNlNl r with
  | none => simpa using processLines_interval url st [] _ key
  | some i =>
    simpa using
      processLines_interval url { st with lastIndexProcessed := i + 2 } [] _ key

theorem stepSig_no_reconnect (c : Conn) (s : Sig)
    (h0 : c.parser.interval = 0) (hp : c.pollTimerPending = false)
    (hs : retryFreeSig s = true) :
    (stepSig c s).1.parser.interval = 0 ∧
    (stepSig c s).1.pollTimerPending = false ∧ (stepSig c s).2.2 = 0 := by
  cases s with
  | rsc rs xst text =>
    have hfree : retryFree text = true := hs
    simp only [stepSig, onReadyStateChange]
    by_cases hc : c.status = CLOSED
    · simp [hc, h0, hp]
    by_cases hrs : rs ≠ XHR_DONE ∧ rs ≠ XHR_LOADING
    · simp [hc, hrs, h0, hp]
    by_cases hok : 200 ≤ xst ∧ xst < 400
    · have hint := handleEvent_interval c.url c.parser text hfree
      rw [h0] at hint
      by_cases hco : c.status = CONNECTING
      · simp only [if_neg hc, if_neg hrs, if_pos hok, if_pos hco]
        by_cases hd : rs = XHR_DONE <;> simp [hd, pollAgain, hint, hp]
      · simp only [if_neg hc, if_neg hrs, if_pos hok, if_neg hco]
        by_cases hd : rs = XHR_DONE <;> simp [hd, pollAgain, hint, hp]
    · by_cases hz : xst ≠ 0
      · simp only [if_neg hc, if_neg hrs, if_neg hok, if_pos hz]
        by_cases hd : rs = XHR_DONE <;>
          simp [hd, pollAgain, h0, hp]
      · simp [if_neg hc, if_neg hrs, if_neg hok, hz, h0, hp]
  | xhrErr text xst rs =>
    by_cases hc : c.status = CLOSED <;>
      simp [stepSig, onXhrError, hc, h0, hp]
  | timerFire => simp [stepSig, hp, h0]
  | closeCall => simp [stepSig, closeConn, h0]

/-- C7: with the connection's interval 0 (pollingInterval 0, never
overridden because no delivered text carries a valid retry field), no
event-loop signal — stream completion, terminal error, timer or close —
ever schedules a reconnection timer or performs a connection attempt;
yet construction always schedules the initial open, whatever
`timeoutBeforeConnection` is (`_pollAgain` is called with `allowZero`). -/
theorem interval_zero_no_reconnect (c : Conn) (sigs : List Sig)
    (h0 : c.parser.interval = 0) (hp : c.pollTimerPending = false)
    (hs : ∀ s ∈ sigs, retryFreeSig s = true) :
    (runSigs c sigs).2.2 = 0 ∧ (runSigs c sigs).1.pollTimerPending = false ∧
    (∀ url method headers timeout wc body pi tbc,
      (initConn url method headers timeout wc body pi tbc).pollTimerPending
        = true) := by
  refine ⟨?_, ?_, fun url method headers timeout wc body pi tbc => by
    simp [initConn, pollAgain]⟩
  all_goals
    induction sigs generalizing c with
    | nil => simp [runSigs, hp]
    | cons s ss ih =>
      obtain ⟨k0, k1, k2⟩ := stepSig_no_reconnect c s h0 hp (hs s (by simp))
      simp only [runSigs]
      have := ih (stepSig c s).1 k0 k1 (fun x hx => hs x (by simp [hx]))
      simp [this, k2]

/-- C7 witness: a pollingInterval-0 connection receiving a full stream
completion and a stray timer signal performs no connection attempt and ends
with no pending timer, while a constructed connection with
`timeoutBeforeConnection = 0` still has its initial open scheduled. -/
theorem interval_zero_no_reconnect_witness :
    (runSigs connEx0 [Sig.rsc 4 200 ("data: a\n\n".toList),
      Sig.timerFire]).2.2 = 0 ∧
    (runSigs connEx0 [Sig.rsc 4 200 ("data: a\n\n".toList),
      Sig.timerFire]).1.pollTimerPending = false ∧
    (initConn ("u".toList) ("GET".toList) [] 0 false none 0 0).pollTimerPending
      = true := by
  obtain ⟨h1, h2, h3⟩ := interval_zero_no_reconnect connEx0
    [Sig.rsc 4 200 ("data: a\n\n".toList), Sig.timerFire] rfl rfl (by decide)
  exact ⟨h1, h2, h3 ("u".toList) ("GET".toList) [] 0 false none 0 0⟩

/-! ### Claim C3 -/

theorem processLine_lastIndexProcessed (url : List Char) (st : PState)
    (data : List (List Char)) (raw : List Char) :
    (processLine url st data raw).1.lastIndexProcessed =
      st.lastIndexProcessed := by
  by_cases h1 : ['e', 'v', 'e', 'n', 't'] <+: trimLine raw
  · simp [processLine, h1]
  by_cases h2 : ['r', 'e', 't', 'r', 'y'] <+: trimLine raw
  · cases hj : jsParseInt10 (stripField (['r', 'e', 't', 'r', 'y'])
      (trimLine raw)) <;> simp [processLine, h1, h2, hj]
  by_cases h3 : ['d', 'a', 't', 'a'] <+: trimLine raw
  · simp [processLine, h1, h2, h3]
  by_cases h4 : ['i', 'd', ':'] <+: trimLine raw
  · simp [processLine, h1, h2, h3, h4]
  by_cases h5 : ['i', 'd'] <+: trimLine raw
  · simp [processLine, h1, h2, h3, h4, h5]
  by_cases h6 : trimLine raw = []
  · by_cases h7 : data = [] <;> simp [processLine, h1, h2, h3, h4, h5, h6, h7]
  · simp [processLine, h1, h2, h3, h4, h5, h6]

theorem processLines_lastIndexProcessed (url : List Char) (st : PState)
    (data : List (List Char)) (parts : List (List Char)) :
    (processLines url st data parts).1.lastIndexProcessed =
      st.lastIndexProcessed := by
  induction parts generalizing st data with
  | nil => rfl
  | cons p ps ih =>
    simp only [processLines]
    rw [ih]
    exact processLine_lastIndexProcessed url st data p

theorem handleEvent_offset (url : List Char) (st : PState) (r : List Char) :
    (handleEvent url st r).1.lastIndexProcessed =
      match lastNlNl r with
      | some i => i + 2
      | none => st.lastIndexProcessed := by
  unfold handleEvent
  cases h : lastNlNl r <;> simp [h, processLines_lastIndexProcessed]

theorem isNlNlAt_cons_succ (c : Char) (rest : List Char) (i : Nat) :
    isNlNlAt (c :: rest) (i + 1) ↔ isNlNlAt rest i := Iff.rfl

theorem isNlNlAt_cons_zero (c : Char) (rest : List Char) :
    isNlNlAt (c :: rest) 0 ↔ (c = '\n' ∧ rest.head? = some '\n') := by
  unfold isNlNlAt
  rw [List.drop_zero, List.cons_prefix_cons]
  cases rest with
  | nil => simp [eq_comm]
  | cons d ds => simp [List.cons_prefix_cons, eq_comm]

theorem isNlNlAt_length (s : List Char) (i : Nat) (h : isNlNlAt s i) :
    i + 2 ≤ s.length := by
  unfold isNlNlAt at h
  have := h.length_le
  simp [List.length_drop] at this
  omega

theorem isNlNlAt_mono (p r : List Char) (i : Nat) (hpre : p <+: r)
    (h : isNlNlAt p i) : isNlNlAt r i := by
  unfold isNlNlAt at h ⊢
  exact h.trans (hpre.drop i)

theorem lastNlNl_some (s : List Char) (i : Nat) (h : lastNlNl s = some i) :
    isNlNlAt s i := by
  induction s generalizing i with
  | nil => simp [lastNlNl] at h
  | cons c rest ih =>
    rw [lastNlNl] at h
    cases hr : lastNlNl rest with
    | some k =>
      rw [hr] at h
      simp only [Option.some.injEq] at h
      subst h
      exact (isNlNlAt_cons_succ c rest k).mpr (ih k hr)
    | none =>
      rw [hr] at h
      by_cases hcond : c = '\n' ∧ rest.head? = some '\n'
      · rw [if_pos hcond] at h
        simp only [Option.some.injEq] at h
        subst h
        exact (isNlNlAt_cons_zero c rest).mpr hcond
      · rw [if_neg hcond] at h
        exact absurd h (by simp)

theorem lastNlNl_none (s : List Char) (j : Nat) (h : lastNlNl s = none) :
    ¬ isNlNlAt s j := by
  induction s generalizing j with
  | nil =>
    unfold isNlNlAt
    simp
  | cons c rest ih =>
    rw [lastNlNl] at h
    cases hr : lastNlNl rest with
    | some k => rw [hr] at h; simp at h
    | none =>
      rw [hr] at h
      by_cases hcond : c = '\n' ∧ rest.head? = some '\n'
      · rw [if_pos hcond] at h; simp at h
      · cases j with
        | zero => exact fun hat => hcond ((isNlNlAt_cons_zero c rest).mp hat)
        | succ j =>
          exact fun hat => ih j hr ((isNlNlAt_cons_succ c rest j).mp hat)

theorem lastNlNl_maximal (s : List Char) (i j : Nat)
    (h : lastNlNl s = some i) (hj : isNlNlAt s j) : j ≤ i := by
  induction s generalizing i j with
  | nil => simp [lastNlNl] at h
  | cons c rest ih =>
    rw [lastNlNl] at h
    cases hr : lastNlNl rest with
    | some k =>
      rw [hr] at h
      simp only [Option.some.injEq] at h
      subst h
      cases j with
      | zero => omega
      | succ j =>
        have := ih k j hr ((isNlNlAt_cons_succ c rest j).mp hj)
        omega
    | none =>
      rw [hr] at h
      by_cases hcond : c = '\n' ∧ rest.head? = some '\n'
      · rw [if_pos hcond] at h
        simp only [Option.some.injEq] at h
        subst h
        cases j with
        | zero => omega
        | succ j =>
          exact absurd ((isNlNlAt_cons_succ c rest j).mp hj)
            (lastNlNl_none rest j hr)
      · rw [if_neg hcond] at h
        simp at h

theorem handleEvent_offset_step (url : List Char) (st : PState)
    (p r : List Char) (hok : OffOk st.lastIndexProcessed p) (hpre : p <+: r) :
    ((handleEvent url st r).1.lastIndexProcessed =
      match lastNlNl r with
      | some i => i + 2
      | none => st.lastIndexProcessed) ∧
    st.lastIndexProcessed ≤ (handleEvent url st r).1.lastIndexProcessed ∧
    (handleEvent url st r).1.lastIndexProcessed ≤ r.length ∧
    OffOk (handleEvent url st r).1.lastIndexProcessed r := by
  have hoff := handleEvent_offset url st r
  cases hnl : lastNlNl r with
  | none =>
    have hold : st.lastIndexProcessed = 0 := by
      rcases hok with h | ⟨h2, hat⟩
      · exact h
      · exact absurd (isNlNlAt_mono p r _ hpre hat) (lastNlNl_none r _ hnl)
    have hoff2 : (handleEvent url st r).1.lastIndexProcessed =
        st.lastIndexProcessed := by rw [hoff, hnl]
    refine ⟨by rw [hoff, hnl], le_of_eq hoff2.symm, ?_, ?_⟩
    · rw [hoff2, hold]; omega
    · rw [hoff2, hold]; left; rfl
  | some i =>
    have hat := lastNlNl_some r i hnl
    have hlen := isNlNlAt_length r i hat
    have hmono : st.lastIndexProcessed ≤ i + 2 := by
      rcases hok with h | ⟨h2, hatp⟩
      · omega
      · have := lastNlNl_maximal r i _ hnl (isNlNlAt_mono p r _ hpre hatp)
        omega
    have hoff2 : (handleEvent url st r).1.lastIndexProcessed = i + 2 := by
      rw [hoff, hnl]
    refine ⟨by rw [hoff, hnl], by rw [hoff2]; exact hmono,
      by rw [hoff2]; omega, ?_⟩
    rw [hoff2]
    right
    exact ⟨by omega, by simpa using hat⟩

theorem offset_evolution_aux (url : List Char) (rs : List (List Char)) :
    ∀ (st : PState) (p : List Char), OffOk st.lastIndexProcessed p →
      PrefixChain (p :: rs) → OffsetEvolution url st rs := by
  induction rs with
  | nil => intro st p _ _; trivial
  | cons r rs' ih =>
    intro st p hok hchain
    obtain ⟨h1, h2, h3, h4⟩ := handleEvent_offset_step url st p r hok hchain.1
    exact ⟨h1, h2, h3, h4, ih (handleEvent url st r).1 r h4 hchain.2⟩

/-- C3: within one connection attempt — `_handleEvent` called on a chain of
cumulative buffers from offset 0 — `lastIndexProcessed` never decreases;
after each call it equals its previous value when the buffer holds no
`"\n\n"` and the position just after the last `"\n\n"` otherwise; and it
always stays within the buffer, just past a record terminator already
seen (or at 0). -/
theorem offset_invariant (url : List Char) (st : PState)
    (rs : List (List Char)) (h0 : st.lastIndexProcessed = 0)
    (hc : PrefixChain rs) : OffsetEvolution url st rs := by
  cases rs with
  | nil => trivial
  | cons r rs' =>
    apply offset_evolution_aux url (r :: rs') st []
    · left; exact h0
    · exact ⟨List.nil_prefix, hc⟩

/-- C3 witness: two cumulative deliveries, the first cut inside a record
(offset stays 0), the second ending at a terminator (offset moves just past
the final `"\n\n"`). -/
theorem offset_invariant_witness :
    OffsetEvolution ("u".toList) (freshPState none none 5000)
      ["data: a\nda".toList, "data: a\ndata: b\n\n".toList] :=
  offset_invariant ("u".toList) (freshPState none none 5000)
    ["data: a\nda".toList, "data: a\ndata: b\n\n".toList] rfl
    ⟨List.isPrefixOf_iff_prefix.mp (by decide), trivial⟩

/-! ### Claim C1: split-line structure -/

theorem splitNl_ne_nil (x : List Char) : splitNl x ≠ [] := by
  cases x with
  | nil => simp [splitNl]
  | cons c rest =>
    rw [splitNl]
    by_cases h : c = '\n'
    · simp [h]
    · simp only [if_neg h]
      cases splitNl rest <;> simp

theorem splitNl_cons_nl (x : List Char) :
    splitNl ('\n' :: x) = [] :: splitNl x := by
  rw [splitNl]
  simp

theorem splitNl_cons_ne (c : Char) (x : List Char) (h : ¬ c = '\n') (hd : List Char)
    (tl : List (List Char)) (hsp : splitNl x = hd :: tl) :
    splitNl (c :: x) = (c :: hd) :: tl := by
  rw [splitNl, if_neg h, hsp]

theorem splitNl_append_nl (x y : List Char) :
    splitNl (x ++ '\n' :: y) = splitNl x ++ splitNl y := by
  induction x with
  | nil => simp [splitNl_cons_nl, splitNl]
  | cons c rest ih =>
    by_cases h : c = '\n'
    · subst h
      rw [List.cons_append, splitNl_cons_nl, splitNl_cons_nl, ih,
        List.cons_append]
    · cases hsp : splitNl rest with
      | nil => exact absurd hsp (splitNl_ne_nil rest)
      | cons hd tl =>
        have ih2 : splitNl (rest ++ '\n' :: y) = hd :: (tl ++ splitNl y) := by
          rw [ih, hsp]
          rfl
        rw [List.cons_append, splitNl_cons_ne c _ h hd (tl ++ splitNl y) ih2,
          splitNl_cons_ne c rest h hd tl hsp]
        rfl

theorem splitNl_noNl (t : List Char) (h : '\n' ∉ t) : splitNl t = [t] := by
  induction t with
  | nil => rfl
  | cons c rest ih =>
    have hc : ¬ c = '\n' := fun hh => h (by simp [hh])
    have hr : '\n' ∉ rest := fun hh => h (by simp [hh])
    rw [splitNl_cons_ne c rest hc rest [] (ih hr)]

theorem splitNl_append_noNl (t e : List Char) (h : '\n' ∉ t) (hd : List Char)
    (tl : List (List Char)) (hsp : splitNl e = hd :: tl) :
    splitNl (t ++ e) = (t ++ hd) :: tl := by
  induction t with
  | nil => simpa using hsp
  | cons c rest ih =>
    have hc : ¬ c = '\n' := fun hh => h (by simp [hh])
    have hr : '\n' ∉ rest := fun hh => h (by simp [hh])
    rw [List.cons_append, splitNl_cons_ne c _ hc (rest ++ hd) tl (ih hr),
      List.cons_append]

theorem splitNl_no_empty_complete_fuel : ∀ (n : Nat) (x : List Char),
    x.length ≤ n → (∀ j, ¬ isNlNlAt x j) → x.head? ≠ some '\n' →
    ∀ m ∈ (splitNl x).dropLast, m ≠ [] := by
  intro n
  induction n with
  | zero =>
    intro x hlen _ _
    rw [List.length_eq_zero.mp (Nat.le_zero.mp hlen)]
    simp [splitNl]
  | succ n ih =>
    intro x hlen hnn hhd
    cases x with
    | nil => simp [splitNl]
    | cons c rest =>
      have hc : ¬ c = '\n' := by simpa using hhd
      cases hsp : splitNl rest with
      | nil => exact absurd hsp (splitNl_ne_nil rest)
      | cons hd tl =>
        rw [splitNl_cons_ne c rest hc hd tl hsp]
        cases tl with
        | nil => simp
        | cons t0 t1 =>
          intro m hm
          rw [List.dropLast_cons_of_ne_nil (by simp)] at hm
          rcases List.mem_cons.mp hm with rfl | hm
          · simp
          · cases rest with
            | nil => simp [splitNl] at hsp
            | cons d rest₂ =>
              by_cases hdn : d = '\n'
              · subst hdn
                rw [splitNl_cons_nl] at hsp
                have htl : splitNl rest₂ = t0 :: t1 := by
                  injection hsp
                have hnn₂ : ∀ j, ¬ isNlNlAt rest₂ j := fun j hj =>
                  hnn (j + 2) hj
                have hhd₂ : rest₂.head? ≠ some '\n' := by
                  intro hh
                  exact hnn 1 ((isNlNlAt_cons_succ c _ 0).mpr
                    ((isNlNlAt_cons_zero '\n' rest₂).mpr ⟨rfl, hh⟩))
                refine ih rest₂ (by simp only [List.length_cons] at hlen; omega)
                  hnn₂ hhd₂ m ?_
                rw [htl]
                exact hm
              · have hnn₁ : ∀ j, ¬ isNlNlAt (d :: rest₂) j := fun j hj =>
                  hnn (j + 1) hj
                have hhd₁ : (d :: rest₂).head? ≠ some '\n' := by simpa using hdn
                refine ih (d :: rest₂)
                  (by simp only [List.length_cons] at hlen ⊢; omega) hnn₁ hhd₁ m ?_
                rw [hsp, List.dropLast_cons_of_ne_nil (by simp)]
                exact List.mem_cons_of_mem hd hm

theorem splitNl_no_empty_complete (x : List Char)
    (hnn : ∀ j, ¬ isNlNlAt x j) (hhd : x.head? ≠ some '\n') :
    ∀ m ∈ (splitNl x).dropLast, m ≠ [] :=
  splitNl_no_empty_complete_fuel x.length x le_rfl hnn hhd

/-! ### Claim C1: tail-line structure -/

theorem takeWhile_append_all {α : Type} (q : α → Bool) (w z : List α)
    (h : ∀ c ∈ w, q c = true) : (w ++ z).takeWhile q = w ++ z.takeWhile q := by
  induction w with
  | nil => rfl
  | cons c cs ih =>
    rw [List.cons_append, List.takeWhile_cons_of_pos (h c (by simp)),
      ih (fun c hc => h c (by simp [hc])), List.cons_append]

theorem dropWhile_append_all {α : Type} (q : α → Bool) (w z : List α)
    (h : ∀ c ∈ w, q c = true) : (w ++ z).dropWhile q = z.dropWhile q := by
  induction w with
  | nil => rfl
  | cons c cs ih =>
    rw [List.cons_append, List.dropWhile_cons_of_pos (h c (by simp)),
      ih (fun c hc => h c (by simp [hc]))]

theorem tailLine_noNl (v : List Char) (h : '\n' ∉ v) : tailLine v = v := by
  unfold tailLine
  rw [List.takeWhile_eq_self_iff.mpr, List.reverse_reverse]
  intro c hc
  simp only [decide_eq_true_eq]
  exact fun hcc => h (by rw [← hcc]; exact List.mem_reverse.mp hc)

theorem tailLine_append_nl (u v : List Char) (h : '\n' ∉ v) :
    tailLine (u ++ '\n' :: v) = v := by
  unfold tailLine
  have hrev : (u ++ '\n' :: v).reverse = v.reverse ++ '\n' :: u.reverse := by
    simp
  rw [hrev, takeWhile_append_all _ _ _ (fun c hc => by
    simp only [decide_eq_true_eq]
    exact fun hcc => h (by rw [← hcc]; exact List.mem_reverse.mp hc))]
  rw [List.takeWhile_cons_of_neg (by simp)]
  simp

theorem exists_lastNl_split (p : List Char) (h : '\n' ∈ p) :
    ∃ a b, p = a ++ '\n' :: b ∧ '\n' ∉ b := by
  induction p with
  | nil => simp at h
  | cons c rest ih =>
    by_cases hr : '\n' ∈ rest
    · obtain ⟨a, b, hab, hb⟩ := ih hr
      exact ⟨c :: a, b, by rw [hab]; rfl, hb⟩
    · have hc : c = '\n' := by
        rcases List.mem_cons.mp h with hh | hh
        · exact hh.symm
        · exact absurd hh hr
      exact ⟨[], rest, by rw [hc]; rfl, hr⟩

theorem nlnl_split (p : List Char) (i : Nat) (h : isNlNlAt p i) :
    p = p.take i ++ '\n' :: '\n' :: p.drop (i + 2) := by
  obtain ⟨t, ht⟩ := h
  have hdrop : p.drop i = '\n' :: '\n' :: p.drop (i + 2) := by
    have h2 : p.drop (i + 2) = (p.drop i).drop 2 := by
      rw [List.drop_drop]
    rw [h2, ← ht]
    rfl
  rw [← hdrop]
  exact (List.take_append_drop i p).symm

theorem drop_isNlNlAt (p : List Char) (o j : Nat) :
    isNlNlAt (p.drop o) j ↔ isNlNlAt p (o + j) := by
  unfold isNlNlAt
  rw [List.drop_drop]

theorem lastNlNl_drop_none (p : List Char) (i : Nat)
    (h : lastNlNl p = some i) : ∀ j, ¬ isNlNlAt (p.drop (i + 2)) j := by
  intro j hj
  have := lastNlNl_maximal p i (i + 2 + j) h ((drop_isNlNlAt p (i + 2) j).mp hj)
  omega

theorem lastNlNl_drop_head (p : List Char) (i : Nat)
    (h : lastNlNl p = some i) : (p.drop (i + 2)).head? ≠ some '\n' := by
  intro hh
  have hsplit := nlnl_split p i (lastNlNl_some p i h)
  have hat : isNlNlAt p (i + 1) := by
    have hdrop : p.drop (i + 1) = '\n' :: p.drop (i + 2) := by
      conv_lhs => rw [hsplit]
      rw [List.drop_append_eq_append_drop]
      have hlen : (p.take i).length = i := by
        have : i ≤ p.length := by
          have h2 := isNlNlAt_length p i (lastNlNl_some p i h)
          omega
        simp [this]
      rw [hlen]
      simp
    unfold isNlNlAt
    rw [hdrop]
    cases hc : p.drop (i + 2) with
    | nil => rw [hc] at hh; simp at hh
    | cons d rest =>
      rw [hc] at hh
      simp only [List.head?_cons, Option.some.injEq] at hh
      exact ⟨rest, by rw [hh]; rfl⟩
  have := lastNlNl_maximal p i (i + 1) h hat
  omega

/-! ### Claim C1: line-processing properties -/

theorem processLine_basic (url : List Char) (st st' : PState)
    (data data' : List (List Char)) (raw : List Char) (n : Nat) :
    (processLine url st data raw).2.1 = (processLine url st' data raw).2.1 ∧
    processLine url { st with lastIndexProcessed := n } data raw =
      ({ (processLine url st data raw).1 with lastIndexProcessed := n },
       (processLine url st data raw).2.1, (processLine url st data raw).2.2) ∧
    (trimLine raw ≠ [] → (processLine url st data raw).2.2 = [] ∧
      (processLine url st data raw).1 = (processLine url st data' raw).1) := by
  by_cases h1 : ['e', 'v', 'e', 'n', 't'] <+: trimLine raw
  · refine ⟨?_, ?_, fun _ => ⟨?_, ?_⟩⟩ <;> simp [processLine, h1]
  by_cases h2 : ['r', 'e', 't', 'r', 'y'] <+: trimLine raw
  · cases hj : jsParseInt10 (stripField (['r', 'e', 't', 'r', 'y'])
      (trimLine raw)) <;>
      (refine ⟨?_, ?_, fun _ => ⟨?_, ?_⟩⟩ <;> simp [processLine, h1, h2, hj])
  by_cases h3 : ['d', 'a', 't', 'a'] <+: trimLine raw
  · refine ⟨?_, ?_, fun _ => ⟨?_, ?_⟩⟩ <;> simp [processLine, h1, h2, h3]
  by_cases h4 : ['i', 'd', ':'] <+: trimLine raw
  · refine ⟨?_, ?_, fun _ => ⟨?_, ?_⟩⟩ <;> simp [processLine, h1, h2, h3, h4]
  by_cases h5 : ['i', 'd'] <+: trimLine raw
  · refine ⟨?_, ?_, fun _ => ⟨?_, ?_⟩⟩ <;>
      simp [processLine, h1, h2, h3, h4, h5]
  by_cases h6 : trimLine raw = []
  · by_cases h7 : data = [] <;>
      (refine ⟨?_, ?_, fun hh => absurd h6 hh⟩ <;>
        simp [processLine, h1, h2, h3, h4, h5, h6, h7])
  · refine ⟨?_, ?_, fun _ => ⟨?_, ?_⟩⟩ <;>
      simp [processLine, h1, h2, h3, h4, h5, h6]

theorem processLine_eventType (url : List Char) (st : PState)
    (data : List (List Char)) (raw : List Char) (ht : trimLine raw ≠ []) :
    (¬ (['e', 'v', 'e', 'n', 't'] <+: trimLine raw) →
      (processLine url st data raw).1.eventType = st.eventType) ∧
    ((['e', 'v', 'e', 'n', 't'] <+: trimLine raw) → ∀ st' data',
      (processLine url st data raw).1.eventType =
        (processLine url st' data' raw).1.eventType) := by
  constructor
  · intro h1
    by_cases h2 : ['r', 'e', 't', 'r', 'y'] <+: trimLine raw
    · cases hj : jsParseInt10 (stripField (['r', 'e', 't', 'r', 'y'])
        (trimLine raw)) <;> simp [processLine, h1, h2, hj]
    by_cases h3 : ['d', 'a', 't', 'a'] <+: trimLine raw
    · simp [processLine, h1, h2, h3]
    by_cases h4 : ['i', 'd', ':'] <+: trimLine raw
    · simp [processLine, h1, h2, h3, h4]
    by_cases h5 : ['i', 'd'] <+: trimLine raw
    · simp [processLine, h1, h2, h3, h4, h5]
    · simp [processLine, h1, h2, h3, h4, h5, ht]
  · intro h1 st' data'
    simp [processLine, h1]

theorem processLine_lastEventId (url : List Char) (st : PState)
    (data : List (List Char)) (raw : List Char) (ht : trimLine raw ≠ []) :
    (¬ (['i', 'd'] <+: trimLine raw) →
      (processLine url st data raw).1.lastEventId = st.lastEventId) ∧
    ((['i', 'd'] <+: trimLine raw) → ∀ st' data',
      (processLine url st data raw).1.lastEventId =
        (processLine url st' data' raw).1.lastEventId) := by
  constructor
  · intro h5
    by_cases h1 : ['e', 'v', 'e', 'n', 't'] <+: trimLine raw
    · simp [processLine, h1]
    by_cases h2 : ['r', 'e', 't', 'r', 'y'] <+: trimLine raw
    · cases hj : jsParseInt10 (stripField (['r', 'e', 't', 'r', 'y'])
        (trimLine raw)) <;> simp [processLine, h1, h2, hj]
    by_cases h3 : ['d', 'a', 't', 'a'] <+: trimLine raw
    · simp [processLine, h1, h2, h3]
    by_cases h4 : ['i', 'd', ':'] <+: trimLine raw
    · exact absurd (List.IsPrefix.trans ⟨[':'], rfl⟩ h4) h5
    · simp [processLine, h1, h2, h3, h4, h5, ht]
  · intro h5 st' data'
    obtain ⟨rest, hrest⟩ := h5
    have h5 : ['i', 'd'] <+: trimLine raw := ⟨rest, hrest⟩
    have hl : trimLine raw = 'i' :: 'd' :: rest := by rw [← hrest]; rfl
    have h1 : ¬ (['e', 'v', 'e', 'n', 't'] <+: trimLine raw) := by
      rw [hl]; intro hh; obtain ⟨t2, ht2⟩ := hh; simp at ht2
    have h2 : ¬ (['r', 'e', 't', 'r', 'y'] <+: trimLine raw) := by
      rw [hl]; intro hh; obtain ⟨t2, ht2⟩ := hh; simp at ht2
    have h3 : ¬ (['d', 'a', 't', 'a'] <+: trimLine raw) := by
      rw [hl]; intro hh; obtain ⟨t2, ht2⟩ := hh; simp at ht2
    by_cases h4 : ['i', 'd', ':'] <+: trimLine raw
    · simp [processLine, h1, h2, h3, h4]
    · simp [processLine, h1, h2, h3, h4, h5]

theorem processLine_interval_det (url : List Char) (st : PState)
    (data : List (List Char)) (raw : List Char) (hw : writesInterval raw) :
    ∀ st' data', (processLine url st data raw).1.interval =
      (processLine url st' data' raw).1.interval := by
  intro st' data'
  unfold writesInterval retryWrite at hw
  rw [Bool.and_eq_true] at hw
  obtain ⟨hpre, hsome⟩ := hw
  have h2 : ['r', 'e', 't', 'r', 'y'] <+: trimLine raw :=
    List.isPrefixOf_iff_prefix.mp hpre
  obtain ⟨rest, hrest⟩ := h2
  have hl : trimLine raw = 'r' :: 'e' :: 't' :: 'r' :: 'y' :: rest := by
    rw [← hrest]; rfl
  have h1 : ¬ (['e', 'v', 'e', 'n', 't'] <+: trimLine raw) := by
    rw [hl]; intro hh; obtain ⟨t2, ht2⟩ := hh; simp at ht2
  have h2' : ['r', 'e', 't', 'r', 'y'] <+: trimLine raw := ⟨rest, hrest⟩
  have hnn : (jsParseInt10 (stripField ("retry".toList)
      (trimLine raw))).isNone = false := by simpa using hsome
  cases hj : jsParseInt10 (stripField ("retry".toList) (trimLine raw)) with
  | none => rw [hj] at hnn; simp at hnn
  | some k =>
    have hj' : jsParseInt10 (stripField (['r', 'e', 't', 'r', 'y'])
        (trimLine raw)) = some k := hj
    simp [processLine, h1, h2', hj']

/-! ### Claim C1: fold properties over line lists -/

theorem processLines_append (url : List Char) (st : PState)
    (data : List (List Char)) (L₁ L₂ : List (List Char)) :
    processLines url st data (L₁ ++ L₂) =
      ((processLines url (processLines url st data L₁).1
          (processLines url st data L₁).2.1 L₂).1,
       (processLines url (processLines url st data L₁).1
          (processLines url st data L₁).2.1 L₂).2.1,
       (processLines url st data L₁).2.2 ++
         (processLines url (processLines url st data L₁).1
            (processLines url st data L₁).2.1 L₂).2.2) := by
  induction L₁ generalizing st data with
  | nil => simp [processLines]
  | cons p ps ih =>
    simp only [List.cons_append, processLines, List.append_eq]
    rw [ih]
    simp [List.append_assoc]

theorem processLines_setOffset (url : List Char) (st : PState)
    (data : List (List Char)) (L : List (List Char)) (n : Nat) :
    processLines url { st with lastIndexProcessed := n } data L =
      ({ (processLines url st data L).1 with lastIndexProcessed := n },
       (processLines url st data L).2.1, (processLines url st data L).2.2) := by
  induction L generalizing st data with
  | nil => rfl
  | cons p ps ih =>
    simp only [processLines]
    rw [(processLine_basic url st st data data p n).2.1, ih]

theorem processLines_events_nil (url : List Char) (st : PState)
    (data : List (List Char)) (L : List (List Char))
    (h : ∀ l ∈ L, trimLine l ≠ []) :
    (processLines url st data L).2.2 = [] := by
  induction L generalizing st data with
  | nil => rfl
  | cons p ps ih =>
    simp only [processLines]
    rw [ih _ _ (fun l hl => h l (by simp [hl])),
      ((processLine_basic url st st data data p 0).2.2 (h p (by simp))).1]
    rfl

theorem processLines_data_det (url : List Char) (L : List (List Char)) :
    ∀ (σa σb : PState) (data : List (List Char)),
      (processLines url σa data L).2.1 = (processLines url σb data L).2.1 := by
  induction L with
  | nil => intro σa σb data; rfl
  | cons p ps ih =>
    intro σa σb data
    simp only [processLines]
    rw [(processLine_basic url σa σb data data p 0).1]
    exact ih _ _ _

theorem processLines_eventType_fold (url : List Char) (L : List (List Char))
    (hL : ∀ l ∈ L, trimLine l ≠ []) :
    ∀ (σa σb : PState) (da db : List (List Char)),
      (σa.eventType = σb.eventType ∨
        ∃ l ∈ L, ['e', 'v', 'e', 'n', 't'] <+: trimLine l) →
      (processLines url σa da L).1.eventType =
        (processLines url σb db L).1.eventType := by
  induction L with
  | nil =>
    intro σa σb da db h
    rcases h with h | ⟨l, hl, _⟩
    · exact h
    · simp at hl
  | cons p ps ih =>
    intro σa σb da db h
    simp only [processLines]
    have htp : trimLine p ≠ [] := hL p (by simp)
    have hrest : ∀ l ∈ ps, trimLine l ≠ [] := fun l hl => hL l (by simp [hl])
    by_cases hw : ['e', 'v', 'e', 'n', 't'] <+: trimLine p
    · exact ih hrest _ _ _ _
        (Or.inl ((processLine_eventType url σa da p htp).2 hw σb db))
    · have ha := (processLine_eventType url σa da p htp).1 hw
      have hb := (processLine_eventType url σb db p htp).1 hw
      refine ih hrest _ _ _ _ ?_
      rcases h with h | ⟨l, hl, hpre⟩
      · exact Or.inl (by rw [ha, hb, h])
      · rcases List.mem_cons.mp hl with rfl | hl
        · exact absurd hpre hw
        · exact Or.inr ⟨l, hl, hpre⟩

theorem processLines_lastEventId_fold (url : List Char) (L : List (List Char))
    (hL : ∀ l ∈ L, trimLine l ≠ []) :
    ∀ (σa σb : PState) (da db : List (List Char)),
      (σa.lastEventId = σb.lastEventId ∨
        ∃ l ∈ L, ['i', 'd'] <+: trimLine l) →
      (processLines url σa da L).1.lastEventId =
        (processLines url σb db L).1.lastEventId := by
  induction L with
  | nil =>
    intro σa σb da db h
    rcases h with h | ⟨l, hl, _⟩
    · exact h
    · simp at hl
  | cons p ps ih =>
    intro σa σb da db h
    simp only [processLines]
    have htp : trimLine p ≠ [] := hL p (by simp)
    have hrest : ∀ l ∈ ps, trimLine l ≠ [] := fun l hl => hL l (by simp [hl])
    by_cases hw : ['i', 'd'] <+: trimLine p
    · exact ih hrest _ _ _ _
        (Or.inl ((processLine_lastEventId url σa da p htp).2 hw σb db))
    · have ha := (processLine_lastEventId url σa da p htp).1 hw
      have hb := (processLine_lastEventId url σb db p htp).1 hw
      refine ih hrest _ _ _ _ ?_
      rcases h with h | ⟨l, hl, hpre⟩
      · exact Or.inl (by rw [ha, hb, h])
      · rcases List.mem_cons.mp hl with rfl | hl
        · exact absurd hpre hw
        · exact Or.inr ⟨l, hl, hpre⟩

theorem processLines_interval_fold (url : List Char) (L : List (List Char)) :
    ∀ (σa σb : PState) (da db : List (List Char)),
      (σa.interval = σb.interval ∨ ∃ l ∈ L, writesInterval l) →
      (processLines url σa da L).1.interval =
        (processLines url σb db L).1.interval := by
  induction L with
  | nil =>
    intro σa σb da db h
    rcases h with h | ⟨l, hl, _⟩
    · exact h
    · simp at hl
  | cons p ps ih =>
    intro σa σb da db h
    simp only [processLines]
    by_cases hw : writesInterval p
    · exact ih _ _ _ _ (Or.inl (processLine_interval_det url σa da p hw σb db))
    · have hwf : retryWrite p = false := by
        unfold writesInterval at hw
        exact Bool.not_eq_true _ ▸ Bool.eq_false_iff.mpr hw
      have ha := processLine_interval url σa da p hwf
      have hb := processLine_interval url σb db p hwf
      refine ih _ _ _ _ ?_
      rcases h with h | ⟨l, hl, hpre⟩
      · exact Or.inl (by rw [ha, hb, h])
      · rcases List.mem_cons.mp hl with rfl | hl
        · exact absurd hpre hw
        · exact Or.inr ⟨l, hl, hpre⟩

/-! ### Claim C1: trimming respects string extension -/

theorem dropWhile_prefix_mono (q : Char → Bool) (x y : List Char)
    (h : x <+: y) : x.dropWhile q <+: y.dropWhile q := by
  induction x generalizing y with
  | nil => simp
  | cons c cs ih =>
    obtain ⟨e, he⟩ := h
    by_cases hq : q c = true
    · rw [← he, List.cons_append, List.dropWhile_cons_of_pos hq,
        List.dropWhile_cons_of_pos hq]
      exact ih (cs ++ e) ⟨e, rfl⟩
    · rw [← he, List.cons_append,
        List.dropWhile_cons_of_neg (by simpa using hq),
        List.dropWhile_cons_of_neg (by simpa using hq)]
      exact ⟨e, rfl⟩

theorem dropWhile_suffix_mono (q : Char → Bool) (u v : List Char)
    (h : u <:+ v) : u.dropWhile q <:+ v.dropWhile q := by
  obtain ⟨e, he⟩ := h
  subst he
  induction e with
  | nil => exact List.suffix_refl _
  | cons c e' ih =>
    by_cases hq : q c = true
    · rw [List.cons_append, List.dropWhile_cons_of_pos hq]
      exact ih
    · rw [List.cons_append, List.dropWhile_cons_of_neg (by simpa using hq)]
      exact (List.dropWhile_suffix q).trans ⟨c :: e', rfl⟩

theorem trimLine_mono (x y : List Char) (h : x <+: y) :
    trimLine x <+: trimLine y := by
  unfold trimLine
  have h1 := dropWhile_prefix_mono jsWs x y h
  have h2 : (x.dropWhile jsWs).reverse <:+ (y.dropWhile jsWs).reverse :=
    List.reverse_suffix.mpr h1
  have h3 := dropWhile_suffix_mono jsWs _ _ h2
  exact List.reverse_prefix.mpr h3

theorem trimLine_decomp (z : List Char) :
    ∃ w₁ w₂, z = w₁ ++ trimLine z ++ w₂ ∧
      (∀ c ∈ w₁, jsWs c = true) ∧ (∀ c ∈ w₂, jsWs c = true) := by
  refine ⟨z.takeWhile jsWs,
    ((z.dropWhile jsWs).reverse.takeWhile jsWs).reverse, ?_, ?_, ?_⟩
  · unfold trimLine
    conv_lhs => rw [← List.takeWhile_append_dropWhile jsWs z]
    rw [List.append_assoc]
    congr 1
    conv_lhs => rw [← List.reverse_reverse (z.dropWhile jsWs),
      ← List.takeWhile_append_dropWhile jsWs (z.dropWhile jsWs).reverse]
    rw [List.reverse_append]
  · exact fun c hc => List.mem_takeWhile_imp hc
  · exact fun c hc => List.mem_takeWhile_imp (List.mem_reverse.mp hc)

theorem trimLine_ne_nil_mono (x y : List Char) (h : x <+: y)
    (hx : trimLine x ≠ []) : trimLine y ≠ [] := by
  intro hy
  exact hx (List.prefix_nil.mp (hy ▸ trimLine_mono x y h))

theorem stripField_nilCase (F u : List Char) (h : u.drop F.length = []) :
    stripField F u = [] := by
  unfold stripField
  rw [h]
  rfl

theorem stripField_colon (F u t : List Char)
    (h : u.drop F.length = ':' :: t) : stripField F u = t.dropWhile jsWs := by
  unfold stripField
  rw [h]
  rfl

theorem stripField_nocolon (F u : List Char) (c : Char) (t : List Char)
    (h : u.drop F.length = c :: t) (hc : ¬ c = ':') :
    stripField F u = (c :: t).dropWhile jsWs := by
  unfold stripField
  rw [h]
  show List.dropWhile jsWs
    (match c :: t with
      | ':' :: t => t
      | r => r) = (c :: t).dropWhile jsWs
  congr 1
  split <;> simp_all

theorem stripField_mono (F : List Char) (u v : List Char) (h : u <+: v) :
    stripField F u <+: stripField F v := by
  have hd : u.drop F.length <+: v.drop F.length := h.drop F.length
  cases hu : u.drop F.length with
  | nil =>
    rw [stripField_nilCase F u hu]
    simp
  | cons c t₁ =>
    obtain ⟨e, he⟩ := hd
    rw [hu, List.cons_append] at he
    by_cases hc : c = ':'
    · subst hc
      rw [stripField_colon F u t₁ hu, stripField_colon F v (t₁ ++ e) he.symm]
      exact dropWhile_prefix_mono jsWs _ _ ⟨e, rfl⟩
    · rw [stripField_nocolon F u c t₁ hu hc,
        stripField_nocolon F v c (t₁ ++ e) he.symm hc]
      exact dropWhile_prefix_mono jsWs _ _ ⟨e, by simp⟩

/-! ### Claim C1: parse transfer from a line to its extension -/

theorem jsParseInt10_wsOnly (s : List Char) (h : s.dropWhile jsWs = []) :
    jsParseInt10 s = none := by
  unfold jsParseInt10
  rw [h]
  rfl

theorem jsParseInt10_minus (s t : List Char) (h : s.dropWhile jsWs = '-' :: t) :
    jsParseInt10 s = (if t.takeWhile Char.isDigit = [] then none
      else some ((-1 : Int) * (((t.takeWhile Char.isDigit).foldl
        (fun a c => a * 10 + (c.toNat - 48)) 0 : Nat) : Int))) := by
  unfold jsParseInt10
  rw [h]
  rfl

theorem jsParseInt10_plus (s t : List Char) (h : s.dropWhile jsWs = '+' :: t) :
    jsParseInt10 s = (if t.takeWhile Char.isDigit = [] then none
      else some ((1 : Int) * (((t.takeWhile Char.isDigit).foldl
        (fun a c => a * 10 + (c.toNat - 48)) 0 : Nat) : Int))) := by
  unfold jsParseInt10
  rw [h]
  rfl

theorem jsParseInt10_other (s t : List Char) (c : Char)
    (h : s.dropWhile jsWs = c :: t) (h1 : ¬ c = '-') (h2 : ¬ c = '+') :
    jsParseInt10 s = (if (c :: t).takeWhile Char.isDigit = [] then none
      else some ((1 : Int) * ((((c :: t).takeWhile Char.isDigit).foldl
        (fun a c => a * 10 + (c.toNat - 48)) 0 : Nat) : Int))) := by
  unfold jsParseInt10
  rw [h]
  simp only [List.head?_cons, Option.some.injEq, if_neg h1, if_neg h2]

theorem jsParseInt10_isSome_mono (x y : List Char) (h : x <+: y)
    (hx : (jsParseInt10 x).isSome = true) : (jsParseInt10 y).isSome = true := by
  have h1 := dropWhile_prefix_mono jsWs x y h
  cases hx₁ : x.dropWhile jsWs with
  | nil =>
    rw [jsParseInt10_wsOnly x hx₁] at hx
    simp at hx
  | cons c t₁ =>
    rw [hx₁] at h1
    obtain ⟨e, he⟩ := h1
    rw [List.cons_append] at he
    have hy₁ : y.dropWhile jsWs = c :: (t₁ ++ e) := he.symm
    by_cases hm : c = '-'
    · subst hm
      rw [jsParseInt10_minus x t₁ hx₁] at hx
      rw [jsParseInt10_minus y (t₁ ++ e) hy₁]
      cases ht : t₁.takeWhile Char.isDigit with
      | nil => rw [ht] at hx; simp at hx
      | cons d ds =>
        cases t₁ with
        | nil => simp at ht
        | cons d₀ t₁' =>
          have hd : d₀.isDigit = true := by
            by_contra hnd
            rw [List.takeWhile_cons_of_neg (by simpa using hnd)] at ht
            exact List.noConfusion ht
          rw [List.cons_append, List.takeWhile_cons_of_pos hd]
          simp
    · by_cases hp : c = '+'
      · subst hp
        rw [jsParseInt10_plus x t₁ hx₁] at hx
        rw [jsParseInt10_plus y (t₁ ++ e) hy₁]
        cases ht : t₁.takeWhile Char.isDigit with
        | nil => rw [ht] at hx; simp at hx
        | cons d ds =>
          cases t₁ with
          | nil => simp at ht
          | cons d₀ t₁' =>
            have hd : d₀.isDigit = true := by
              by_contra hnd
              rw [List.takeWhile_cons_of_neg (by simpa using hnd)] at ht
              exact List.noConfusion ht
            rw [List.cons_append, List.takeWhile_cons_of_pos hd]
            simp
      · rw [jsParseInt10_other x t₁ c hx₁ hm hp] at hx
        rw [jsParseInt10_other y (t₁ ++ e) c hy₁ hm hp]
        cases ht : (c :: t₁).takeWhile Char.isDigit with
        | nil => rw [ht] at hx; simp at hx
        | cons d ds =>
          have hd : c.isDigit = true := by
            by_contra hnd
            rw [List.takeWhile_cons_of_neg (by simpa using hnd)] at ht
            exact List.noConfusion ht
          rw [List.takeWhile_cons_of_pos hd]
          simp

theorem field_prefix_mono (F T ℓ : List Char) (hpre : T <+: ℓ)
    (h : F <+: trimLine T) : F <+: trimLine ℓ :=
  h.trans (trimLine_mono T ℓ hpre)

theorem writesInterval_mono (T ℓ : List Char) (hpre : T <+: ℓ)
    (hw : writesInterval T) : writesInterval ℓ := by
  unfold writesInterval retryWrite at hw ⊢
  rw [Bool.and_eq_true] at hw ⊢
  obtain ⟨hp, hs⟩ := hw
  have htm := trimLine_mono T ℓ hpre
  constructor
  · rw [List.isPrefixOf_iff_prefix] at hp ⊢
    exact hp.trans htm
  · have hsm := stripField_mono ("retry".toList) _ _ htm
    have hsome : (jsParseInt10 (stripField ("retry".toList)
        (trimLine T))).isSome = true := by
      cases ho : jsParseInt10 (stripField ("retry".toList) (trimLine T)) with
      | none => rw [ho] at hs; simp at hs
      | some k => simp
    have := jsParseInt10_isSome_mono _ _ hsm hsome
    cases ho : jsParseInt10 (stripField ("retry".toList) (trimLine ℓ)) with
    | none => rw [ho] at this; simp at this
    | some k => simp

/-! ### Claim C1: re-parsing a retained partial line is harmless -/

theorem processLines_eventType_keep (url : List Char) (L : List (List Char))
    (hL : ∀ l ∈ L, trimLine l ≠ [])
    (hw : ∀ l ∈ L, ¬ (['e', 'v', 'e', 'n', 't'] <+: trimLine l)) :
    ∀ (σ : PState) (d : List (List Char)),
      (processLines url σ d L).1.eventType = σ.eventType := by
  induction L with
  | nil => intro σ d; rfl
  | cons p ps ih =>
    intro σ d
    simp only [processLines]
    rw [ih (fun l hl => hL l (by simp [hl])) (fun l hl => hw l (by simp [hl])),
      (processLine_eventType url σ d p (hL p (by simp))).1 (hw p (by simp))]

theorem processLines_lastEventId_keep (url : List Char) (L : List (List Char))
    (hL : ∀ l ∈ L, trimLine l ≠ [])
    (hw : ∀ l ∈ L, ¬ (['i', 'd'] <+: trimLine l)) :
    ∀ (σ : PState) (d : List (List Char)),
      (processLines url σ d L).1.lastEventId = σ.lastEventId := by
  induction L with
  | nil => intro σ d; rfl
  | cons p ps ih =>
    intro σ d
    simp only [processLines]
    rw [ih (fun l hl => hL l (by simp [hl])) (fun l hl => hw l (by simp [hl])),
      (processLine_lastEventId url σ d p (hL p (by simp))).1 (hw p (by simp))]

theorem processLines_interval_keep (url : List Char) (L : List (List Char))
    (hw : ∀ l ∈ L, ¬ writesInterval l) :
    ∀ (σ : PState) (d : List (List Char)),
      (processLines url σ d L).1.interval = σ.interval := by
  induction L with
  | nil => intro σ d; rfl
  | cons p ps ih =>
    intro σ d
    simp only [processLines]
    have hwf : retryWrite p = false := by
      have := hw p (by simp)
      unfold writesInterval at this
      exact Bool.eq_false_iff.mpr this
    rw [ih (fun l hl => hw l (by simp [hl])), processLine_interval url σ d p hwf]

theorem processLines_replay (url : List Char) (σ0 : PState)
    (M : List (List Char)) (T ℓ : List Char) (R : List (List Char))
    (hM : ∀ m ∈ M, trimLine m ≠ []) (hT : trimLine T ≠ []) (hpre : T <+: ℓ) :
    (processLines url σ0 [] (M ++ [T])).2.2 = [] ∧
    processLines url (processLines url σ0 [] (M ++ [T])).1 []
      (M ++ ℓ :: R) = processLines url σ0 [] (M ++ ℓ :: R) := by
  have hℓ : trimLine ℓ ≠ [] := trimLine_ne_nil_mono T ℓ hpre hT
  have hMT : ∀ l ∈ M ++ [T], trimLine l ≠ [] := by
    intro l hl
    rcases List.mem_append.mp hl with hl | hl
    · exact hM l hl
    · rw [List.mem_singleton.mp hl]; exact hT
  have hMℓ : ∀ l ∈ M ++ [ℓ], trimLine l ≠ [] := by
    intro l hl
    rcases List.mem_append.mp hl with hl | hl
    · exact hM l hl
    · rw [List.mem_singleton.mp hl]; exact hℓ
  refine ⟨processLines_events_nil url σ0 [] (M ++ [T]) hMT, ?_⟩
  set σ1 := (processLines url σ0 [] (M ++ [T])).1 with hσ1
  have hsplit : M ++ ℓ :: R = (M ++ [ℓ]) ++ R := by simp
  -- the parser state after re-parsing the shared lines and the extended line
  have hstate : (processLines url σ1 [] (M ++ [ℓ])).1 =
      (processLines url σ0 [] (M ++ [ℓ])).1 := by
    have hoff : (processLines url σ1 [] (M ++ [ℓ])).1.lastIndexProcessed =
        (processLines url σ0 [] (M ++ [ℓ])).1.lastIndexProcessed := by
      rw [processLines_lastIndexProcessed url σ1 [] (M ++ [ℓ]),
        processLines_lastIndexProcessed url σ0 [] (M ++ [ℓ]), hσ1,
        processLines_lastIndexProcessed url σ0 [] (M ++ [T])]
    have hety : (processLines url σ1 [] (M ++ [ℓ])).1.eventType =
        (processLines url σ0 [] (M ++ [ℓ])).1.eventType := by
      by_cases hE : ∃ l ∈ M ++ [ℓ], ['e', 'v', 'e', 'n', 't'] <+: trimLine l
      · exact processLines_eventType_fold url (M ++ [ℓ]) hMℓ σ1 σ0 [] []
          (Or.inr hE)
      · push_neg at hE
        refine processLines_eventType_fold url (M ++ [ℓ]) hMℓ σ1 σ0 [] []
          (Or.inl ?_)
        have hnoM : ∀ l ∈ M, ¬ (['e', 'v', 'e', 'n', 't'] <+: trimLine l) :=
          fun l hl => hE l (by simp [hl])
        have hnoT : ¬ (['e', 'v', 'e', 'n', 't'] <+: trimLine T) := by
          intro hh
          exact hE ℓ (by simp) (field_prefix_mono _ T ℓ hpre hh)
        rw [hσ1, processLines_eventType_keep url (M ++ [T]) hMT ?_]
        intro l hl
        rcases List.mem_append.mp hl with hl | hl
        · exact hnoM l hl
        · rw [List.mem_singleton.mp hl]; exact hnoT
    have hid : (processLines url σ1 [] (M ++ [ℓ])).1.lastEventId =
        (processLines url σ0 [] (M ++ [ℓ])).1.lastEventId := by
      by_cases hE : ∃ l ∈ M ++ [ℓ], ['i', 'd'] <+: trimLine l
      · exact processLines_lastEventId_fold url (M ++ [ℓ]) hMℓ σ1 σ0 [] []
          (Or.inr hE)
      · push_neg at hE
        refine processLines_lastEventId_fold url (M ++ [ℓ]) hMℓ σ1 σ0 [] []
          (Or.inl ?_)
        have hnoT : ¬ (['i', 'd'] <+: trimLine T) := by
          intro hh
          exact hE ℓ (by simp) (field_prefix_mono _ T ℓ hpre hh)
        rw [hσ1, processLines_lastEventId_keep url (M ++ [T]) hMT ?_]
        intro l hl
        rcases List.mem_append.mp hl with hl | hl
        · exact hE l (by simp [hl])
        · rw [List.mem_singleton.mp hl]; exact hnoT
    have hint : (processLines url σ1 [] (M ++ [ℓ])).1.interval =
        (processLines url σ0 [] (M ++ [ℓ])).1.interval := by
      by_cases hE : ∃ l ∈ M ++ [ℓ], writesInterval l
      · exact processLines_interval_fold url (M ++ [ℓ]) σ1 σ0 [] [] (Or.inr hE)
      · push_neg at hE
        refine processLines_interval_fold url (M ++ [ℓ]) σ1 σ0 [] []
          (Or.inl ?_)
        have hnoT : ¬ writesInterval T := by
          intro hh
          exact hE ℓ (by simp) (writesInterval_mono T ℓ hpre hh)
        rw [hσ1, processLines_interval_keep url (M ++ [T]) ?_]
        intro l hl
        rcases List.mem_append.mp hl with hl | hl
        · exact hE l (by simp [hl])
        · rw [List.mem_singleton.mp hl]; exact hnoT
    ext1 <;> assumption
  have hdata : (processLines url σ1 [] (M ++ [ℓ])).2.1 =
      (processLines url σ0 [] (M ++ [ℓ])).2.1 :=
    processLines_data_det url (M ++ [ℓ]) σ1 σ0 []
  have hev1 : (processLines url σ1 [] (M ++ [ℓ])).2.2 = [] :=
    processLines_events_nil url σ1 [] (M ++ [ℓ]) hMℓ
  have hev0 : (processLines url σ0 [] (M ++ [ℓ])).2.2 = [] :=
    processLines_events_nil url σ0 [] (M ++ [ℓ]) hMℓ
  rw [hsplit, processLines_append url σ1 [] (M ++ [ℓ]) R,
    processLines_append url σ0 [] (M ++ [ℓ]) R, hstate, hdata, hev1, hev0]

/-! ### Claim C1: replay at the string level -/

theorem processLine_empty_raw (url : List Char) (σ : PState) :
    processLine url σ [] [] = (σ, [], []) := by
  simp [processLine, trimLine]

theorem processLine_empty_data (url : List Char) (σ : PState)
    (d : List (List Char)) : (processLine url σ d []).2.1 = [] := by
  by_cases hd : d = [] <;> simp [processLine, trimLine, hd]

theorem processLines_peel_empty (url : List Char) (σ : PState)
    (L : List (List Char)) :
    processLines url σ [] ([] :: L) = processLines url σ [] L := by
  simp only [processLines, processLine_empty_raw]
  simp

theorem stringReplay (url : List Char) (σ : PState) (p' e : List Char)
    (hT : trimLine (tailLine p') ≠ [])
    (hcl : ∀ m ∈ (splitNl p').dropLast, trimLine m ≠ []) :
    (processLines url σ [] (splitNl p')).2.2 = [] ∧
    processLines url (processLines url σ [] (splitNl p')).1 []
      (splitNl (p' ++ e)) = processLines url σ [] (splitNl (p' ++ e)) := by
  cases hdE : splitNl e with
  | nil => exact absurd hdE (splitNl_ne_nil e)
  | cons hd tlB =>
    by_cases hin : '\n' ∈ p'
    · obtain ⟨a, tl, hab, htl⟩ := exists_lastNl_split p' hin
      have htail : tailLine p' = tl := by rw [hab, tailLine_append_nl a tl htl]
      have hsp : splitNl p' = splitNl a ++ [tl] := by
        rw [hab, splitNl_append_nl, splitNl_noNl tl htl]
      have hspB : splitNl (p' ++ e) = splitNl a ++ (tl ++ hd) :: tlB := by
        rw [hab, List.append_assoc, List.cons_append, splitNl_append_nl,
          splitNl_append_noNl tl e htl hd tlB hdE]
      have hM : ∀ m ∈ splitNl a, trimLine m ≠ [] := by
        intro m hm
        apply hcl
        rw [hsp, List.dropLast_concat]
        exact hm
      have := processLines_replay url σ (splitNl a) tl (tl ++ hd) tlB hM
        (htail ▸ hT) ⟨hd, rfl⟩
      rw [hsp, hspB]
      exact this
    · have htail : tailLine p' = p' := tailLine_noNl p' hin
      have hsp : splitNl p' = [p'] := splitNl_noNl p' hin
      have hspB : splitNl (p' ++ e) = (p' ++ hd) :: tlB :=
        splitNl_append_noNl p' e hin hd tlB hdE
      have := processLines_replay url σ [] p' (p' ++ hd) tlB (by simp)
        (htail ▸ hT) ⟨hd, rfl⟩
      rw [hsp, hspB]
      simpa using this

/-! ### Claim C1: composing two handleEvent calls -/

theorem handleEvent_none (url : List Char) (st : PState) (r : List Char)
    (h : lastNlNl r = none) :
    handleEvent url st r =
      ((processLines url st []
          (splitNl (r.drop st.lastIndexProcessed))).1,
       (processLines url st []
          (splitNl (r.drop st.lastIndexProcessed))).2.2) := by
  unfold handleEvent
  rw [h]

theorem handleEvent_some (url : List Char) (st : PState) (r : List Char)
    (i : Nat) (h : lastNlNl r = some i) :
    handleEvent url st r =
      ((processLines url { st with lastIndexProcessed := i + 2 } []
          (splitNl (r.drop st.lastIndexProcessed))).1,
       (processLines url { st with lastIndexProcessed := i + 2 } []
          (splitNl (r.drop st.lastIndexProcessed))).2.2) := by
  unfold handleEvent
  rw [h]

theorem handleEvent_nil (url : List Char) (st : PState) :
    handleEvent url st [] = (st, []) := by
  rw [handleEvent_none url st [] rfl]
  rw [List.drop_nil]
  show ((processLines url st [] [[]]).1, (processLines url st [] [[]]).2.2) = _
  simp [processLines, processLine_empty_raw]

theorem tailLine_append_cons (u v : List Char) :
    tailLine (u ++ '\n' :: v) = tailLine v := by
  by_cases hv : '\n' ∈ v
  · obtain ⟨a, b, hab, hb⟩ := exists_lastNl_split v hv
    rw [hab, tailLine_append_nl a b hb, show u ++ '\n' :: (a ++ '\n' :: b) =
      (u ++ '\n' :: a) ++ '\n' :: b by simp, tailLine_append_nl _ b hb]
  · rw [tailLine_append_nl u v hv, tailLine_noNl v hv]

theorem suffix_nlnl_isNlNlAt (p : List Char) (h : ['\n', '\n'] <:+ p) :
    isNlNlAt p (p.length - 2) := by
  obtain ⟨u, hu⟩ := h
  subst hu
  unfold isNlNlAt
  have hlen : (u ++ ['\n', '\n']).length - 2 = u.length := by simp
  rw [hlen, List.drop_left]

theorem drop_append_of_le (p e : List Char) (o : Nat) (ho : o ≤ p.length) :
    (p ++ e).drop o = p.drop o ++ e := by
  rw [List.drop_append_eq_append_drop]
  have h : o - p.length = 0 := by omega
  rw [h, List.drop_zero]

theorem processLines_one_empty_data (url : List Char) (σ : PState)
    (d : List (List Char)) : (processLines url σ d [[]]).2.1 = [] := by
  obtain ⟨a, b, c, h1⟩ : ∃ a b c, processLine url σ d [] = (a, b, c) :=
    ⟨_, _, _, rfl⟩
  have hb : b = [] := by
    have h2 := processLine_empty_data url σ d
    rw [h1] at h2
    exact h2
  simp [processLines, h1, hb]

theorem processLines_terminated_data (url : List Char) (σ : PState)
    (d : List (List Char)) (L : List (List Char)) :
    (processLines url σ d (L ++ [[]])).2.1 = [] := by
  rw [processLines_append]
  exact processLines_one_empty_data url _ _

theorem processLines_one_empty_run (url : List Char) (σ : PState) :
    processLines url σ [] [[]] = (σ, [], []) := by
  simp [processLines, processLine_empty_raw]

theorem complete_lines_ne_nil (p : List Char)
    (hwfp : ∀ m ∈ (splitNl p).dropLast, trimLine m = [] → m = [])
    (hnn : ∀ j, ¬ isNlNlAt p j) (hhd : p.head? ≠ some '\n') :
    ∀ m ∈ (splitNl p).dropLast, trimLine m ≠ [] := by
  intro m hm htm
  exact splitNl_no_empty_complete p hnn hhd m hm (hwfp m hm htm)

theorem dropLast_splitNl_mono (p e : List Char) :
    ∀ m ∈ (splitNl p).dropLast, m ∈ (splitNl (p ++ e)).dropLast := by
  intro m hm
  by_cases hin : '\n' ∈ p
  · obtain ⟨a, b, hab, hb⟩ := exists_lastNl_split p hin
    rw [hab, splitNl_append_nl, splitNl_noNl b hb, List.dropLast_concat] at hm
    rw [hab, show (a ++ '\n' :: b) ++ e = a ++ '\n' :: (b ++ e) by simp,
      splitNl_append_nl,
      List.dropLast_append_of_ne_nil (splitNl a) (splitNl_ne_nil _)]
    exact List.mem_append_left _ hm
  · rw [splitNl_noNl p hin] at hm
    simp at hm

theorem setOff_setOff (st : PState) (m n : Nat) :
    setOff (setOff st m) n = setOff st n := rfl

theorem processLines_setOff (url : List Char) (st : PState)
    (data : List (List Char)) (L : List (List Char)) (n : Nat) :
    processLines url (setOff st n) data L =
      (setOff (processLines url st data L).1 n,
       (processLines url st data L).2.1,
       (processLines url st data L).2.2) :=
  processLines_setOffset url st data L n

theorem handleEvent_res_some (url : List Char) (σ : PState) (r : List Char)
    (j o : Nat) (h : lastNlNl r = some j)
    (ho : σ.lastIndexProcessed = o) :
    (handleEvent url σ r).1 =
        setOff (processLines url σ [] (splitNl (r.drop o))).1 (j + 2) ∧
    (handleEvent url σ r).2 =
      (processLines url σ [] (splitNl (r.drop o))).2.2 := by
  constructor
  · rw [handleEvent_some url σ r j h, ho, processLines_setOffset]
    rfl
  · rw [handleEvent_some url σ r j h, ho, processLines_setOffset]

theorem handleEvent_res_none (url : List Char) (σ : PState) (r : List Char)
    (o : Nat) (h : lastNlNl r = none)
    (ho : σ.lastIndexProcessed = o) :
    (handleEvent url σ r).1 =
        (processLines url σ [] (splitNl (r.drop o))).1 ∧
    (handleEvent url σ r).2 =
      (processLines url σ [] (splitNl (r.drop o))).2.2 := by
  constructor
  · rw [handleEvent_none url σ r h, ho]
  · rw [handleEvent_none url σ r h, ho]

theorem compose_core (url : List Char) (st0 : PState) (CP : List (List Char))
    (p e q : List Char) (i iB : Nat)
    (h0 : st0.lastIndexProcessed = 0)
    (hnl : lastNlNl p = some i)
    (hBv : lastNlNl (p ++ e) = some iB)
    (hspP : splitNl p = CP ++ splitNl q)
    (hspB : splitNl (p ++ e) = CP ++ splitNl (q ++ e))
    (hdropB : (p ++ e).drop (i + 2) = q ++ e)
    (hdM : (processLines url st0 [] CP).2.1 = [])
    (hEq : (processLines url (processLines url st0 [] CP).1 []
        (splitNl q)).2.2 = [])
    (hXrep : processLines url
        (processLines url (processLines url st0 [] CP).1 []
          (splitNl q)).1 [] (splitNl (q ++ e)) =
      processLines url (processLines url st0 [] CP).1 []
        (splitNl (q ++ e))) :
    (handleEvent url (handleEvent url st0 p).1 (p ++ e)).1 =
        (handleEvent url st0 (p ++ e)).1 ∧
    (handleEvent url st0 p).2 ++
        (handleEvent url (handleEvent url st0 p).1 (p ++ e)).2 =
      (handleEvent url st0 (p ++ e)).2 := by
  obtain ⟨h1st, h1ev⟩ := handleEvent_res_some url st0 p i 0 hnl h0
  rw [List.drop_zero, hspP, processLines_append, hdM] at h1st h1ev
  simp only [] at h1st h1ev
  obtain ⟨h2st, h2ev⟩ := handleEvent_res_some url
    (setOff (processLines url (processLines url st0 [] CP).1 []
      (splitNl q)).1 (i + 2)) (p ++ e) iB (i + 2) hBv rfl
  rw [hdropB, processLines_setOff] at h2st h2ev
  simp only [] at h2st h2ev
  rw [setOff_setOff, hXrep] at h2st
  rw [hXrep] at h2ev
  obtain ⟨hSst, hSev⟩ := handleEvent_res_some url st0 (p ++ e) iB 0 hBv h0
  rw [List.drop_zero, hspB, processLines_append, hdM] at hSst hSev
  simp only [] at hSst hSev
  refine ⟨?_, ?_⟩
  · rw [h1st, h2st, hSst]
  · rw [h1st, h1ev, h2ev, hSev, hEq]
    simp

theorem handleEvent_compose (url : List Char) (st0 : PState) (p e : List Char)
    (h0 : st0.lastIndexProcessed = 0) (hgood : GoodCut p)
    (hwfp : ∀ m ∈ (splitNl p).dropLast, trimLine m = [] → m = []) :
    (handleEvent url (handleEvent url st0 p).1 (p ++ e)).1 =
        (handleEvent url st0 (p ++ e)).1 ∧
    (handleEvent url st0 p).2 ++
        (handleEvent url (handleEvent url st0 p).1 (p ++ e)).2 =
      (handleEvent url st0 (p ++ e)).2 := by
  by_cases hp : p = []
  · subst hp
    rw [handleEvent_nil]
    simp
  cases hnl : lastNlNl p with
  | none =>
    have hT : trimLine (tailLine p) ≠ [] := by
      rcases hgood with h | h | h
      · exact absurd h hp
      · exact h
      · exact absurd (suffix_nlnl_isNlNlAt p h)
          (lastNlNl_none p (p.length - 2) hnl)
    obtain ⟨q, hrun1, hrun2, hTq, hclq⟩ :
        ∃ q, (∀ σ : PState, processLines url σ [] (splitNl p) =
                processLines url σ [] (splitNl q)) ∧
          (∀ σ : PState, processLines url σ [] (splitNl (p ++ e)) =
                processLines url σ [] (splitNl (q ++ e))) ∧
          trimLine (tailLine q) ≠ [] ∧
          ∀ m ∈ (splitNl q).dropLast, trimLine m ≠ [] := by
      cases p with
      | nil => exact absurd rfl hp
      | cons c p₂ =>
        by_cases hc : c = '\n'
        · subst hc
          have hp₂ : ∀ j, ¬ isNlNlAt p₂ j := fun j hj =>
            lastNlNl_none _ (j + 1) hnl ((isNlNlAt_cons_succ '\n' p₂ j).mpr hj)
          have hhd₂ : p₂.head? ≠ some '\n' := fun hh =>
            lastNlNl_none _ 0 hnl ((isNlNlAt_cons_zero '\n' p₂).mpr ⟨rfl, hh⟩)
          refine ⟨p₂, ?_, ?_, ?_, ?_⟩
          · intro σ
            rw [splitNl_cons_nl, processLines_peel_empty]
          · intro σ
            rw [show ('\n' :: p₂) ++ e = '\n' :: (p₂ ++ e) from rfl,
              splitNl_cons_nl, processLines_peel_empty]
          · rw [show ('\n' :: p₂ : List Char) = [] ++ '\n' :: p₂ from rfl,
              tailLine_append_cons] at hT
            exact hT
          · have hwf₂ : ∀ m ∈ (splitNl p₂).dropLast,
                trimLine m = [] → m = [] := by
              intro m hm
              apply hwfp
              rw [splitNl_cons_nl,
                List.dropLast_cons_of_ne_nil (splitNl_ne_nil p₂)]
              exact List.mem_cons_of_mem _ hm
            exact complete_lines_ne_nil p₂ hwf₂ hp₂ hhd₂
        · have hhd : (c :: p₂).head? ≠ some '\n' := by simpa using hc
          exact ⟨c :: p₂, fun σ => rfl, fun σ => rfl, hT,
            complete_lines_ne_nil _ hwfp (fun j => lastNlNl_none _ j hnl) hhd⟩
    obtain ⟨hE1, hrep⟩ := stringReplay url st0 q e hTq hclq
    obtain ⟨h1st, h1ev⟩ := handleEvent_res_none url st0 p 0 hnl h0
    rw [List.drop_zero, hrun1 st0] at h1st h1ev
    rw [hE1] at h1ev
    have hσl : (processLines url st0 []
        (splitNl q)).1.lastIndexProcessed = 0 := by
      rw [processLines_lastIndexProcessed, h0]
    cases hBv : lastNlNl (p ++ e) with
    | none =>
      obtain ⟨h2st, h2ev⟩ := handleEvent_res_none url
        (processLines url st0 [] (splitNl q)).1 (p ++ e) 0 hBv hσl
      rw [List.drop_zero, hrun2, hrep] at h2st h2ev
      obtain ⟨hSst, hSev⟩ := handleEvent_res_none url st0 (p ++ e) 0 hBv h0
      rw [List.drop_zero, hrun2] at hSst hSev
      rw [h1st, h1ev, h2st, h2ev, hSst, hSev]
      simp
    | some iB =>
      obtain ⟨h2st, h2ev⟩ := handleEvent_res_some url
        (processLines url st0 [] (splitNl q)).1 (p ++ e) iB 0 hBv hσl
      rw [List.drop_zero, hrun2, hrep] at h2st h2ev
      obtain ⟨hSst, hSev⟩ := handleEvent_res_some url st0 (p ++ e) iB 0 hBv h0
      rw [List.drop_zero, hrun2] at hSst hSev
      rw [h1st, h1ev, h2st, h2ev, hSst, hSev]
      simp
  | some i =>
    have hat : isNlNlAt p i := lastNlNl_some p i hnl
    have hole : i + 2 ≤ p.length := isNlNlAt_length p i hat
    have hsplitp := nlnl_split p i hat
    cases hBv : lastNlNl (p ++ e) with
    | none =>
      exact absurd (isNlNlAt_mono p (p ++ e) i ⟨e, rfl⟩ hat)
        (lastNlNl_none (p ++ e) i hBv)
    | some iB =>
      have hspP : splitNl p =
          (splitNl (p.take i) ++ [[]]) ++ splitNl (p.drop (i + 2)) := by
        conv_lhs => rw [hsplitp]
        rw [splitNl_append_nl, splitNl_cons_nl]
        simp
      have hpe : p ++ e = p.take i ++ '\n' :: '\n' :: (p.drop (i + 2) ++ e) := by
        conv_lhs => rw [hsplitp]
        simp
      have hspB : splitNl (p ++ e) =
          (splitNl (p.take i) ++ [[]]) ++ splitNl (p.drop (i + 2) ++ e) := by
        rw [hpe, splitNl_append_nl, splitNl_cons_nl]
        simp
      have hdropB : (p ++ e).drop (i + 2) = p.drop (i + 2) ++ e :=
        drop_append_of_le p e (i + 2) hole
      have hdM : (processLines url st0 []
          (splitNl (p.take i) ++ [[]])).2.1 = [] :=
        processLines_terminated_data url st0 [] (splitNl (p.take i))
      obtain ⟨hEq, hXrep⟩ :
          (processLines url (processLines url st0 []
              (splitNl (p.take i) ++ [[]])).1 []
            (splitNl (p.drop (i + 2)))).2.2 = [] ∧
          processLines url
              (processLines url (processLines url st0 []
                (splitNl (p.take i) ++ [[]])).1 []
                (splitNl (p.drop (i + 2)))).1 []
              (splitNl (p.drop (i + 2) ++ e)) =
            processLines url (processLines url st0 []
                (splitNl (p.take i) ++ [[]])).1 []
              (splitNl (p.drop (i + 2) ++ e)) := by
        by_cases hq : p.drop (i + 2) = []
        · rw [hq, show splitNl ([] : List Char) = [[]] from rfl,
            processLines_one_empty_run]
          exact ⟨rfl, rfl⟩
        · have hTq : trimLine (tailLine (p.drop (i + 2))) ≠ [] := by
            have htp : tailLine p = tailLine (p.drop (i + 2)) := by
              conv_lhs => rw [hsplitp]
              rw [tailLine_append_cons, show ('\n' :: p.drop (i + 2)) =
                  [] ++ '\n' :: p.drop (i + 2) from rfl, tailLine_append_cons]
            rcases hgood with h | h | h
            · exact absurd h hp
            · rw [htp] at h
              exact h
            · exfalso
              have h2 := suffix_nlnl_isNlNlAt p h
              have h3 := lastNlNl_maximal p i (p.length - 2) hnl h2
              have h4 : i + 2 = p.length := by omega
              apply hq
              rw [h4]
              exact List.drop_length p
          have hwfq : ∀ m ∈ (splitNl (p.drop (i + 2))).dropLast,
              trimLine m = [] → m = [] := by
            intro m hm
            apply hwfp
            rw [hspP, List.dropLast_append_of_ne_nil _ (splitNl_ne_nil _)]
            exact List.mem_append_right _ hm
          exact stringReplay url _ (p.drop (i + 2)) e hTq
            (complete_lines_ne_nil (p.drop (i + 2)) hwfq
              (lastNlNl_drop_none p i hnl) (lastNlNl_drop_head p i hnl))
      exact compose_core url st0 (splitNl (p.take i) ++ [[]]) p e
        (p.drop (i + 2)) i iB h0 hnl hBv hspP hspB hdropB hdM hEq hXrep

theorem handleChunks_cons (url : List Char) (st : PState) (r : List Char)
    (rs : List (List Char)) :
    handleChunks url st (r :: rs) =
      ((handleChunks url (handleEvent url st r).1 rs).1,
       (handleEvent url st r).2 ++
         (handleChunks url (handleEvent url st r).1 rs).2) := by
  obtain ⟨a, b, hab⟩ : ∃ a b, handleEvent url st r = (a, b) := ⟨_, _, rfl⟩
  obtain ⟨c, d, hcd⟩ : ∃ c d, handleChunks url a rs = (c, d) := ⟨_, _, rfl⟩
  simp [handleChunks, hab, hcd]

theorem prefixChain_head_last :
    ∀ (xs : List (List Char)) (x s : List Char),
      PrefixChain (x :: xs) → (x :: xs).getLast? = some s → x <+: s := by
  intro xs
  induction xs with
  | nil =>
    intro x s _ hlast
    have hx : x = s := by simpa using hlast
    rw [hx]
  | cons y ys ih =>
    intro x s hchain hlast
    exact hchain.1.trans (ih y s hchain.2 (by simpa using hlast))

theorem handleChunks_prefix_chain (url : List Char) (s : List Char)
    (hwfs : ∀ m ∈ (splitNl s).dropLast, trimLine m = [] → m = []) :
    ∀ (ps : List (List Char)) (st0 : PState) (p : List Char),
      st0.lastIndexProcessed = 0 → PrefixChain (p :: ps) →
      (p :: ps).getLast? = some s →
      (∀ x ∈ (p :: ps).dropLast, GoodCut x) →
      handleChunks url st0 (p :: ps) = handleEvent url st0 s := by
  intro ps
  induction ps with
  | nil =>
    intro st0 p _ _ hlast _
    have hps : p = s := by simpa using hlast
    subst hps
    rw [handleChunks_cons]
    simp [handleChunks]
  | cons p₂ rest ih =>
    intro st0 p h0 hchain hlast hgood
    obtain ⟨e, he⟩ := hchain.1
    subst he
    have hps : p <+: s :=
      prefixChain_head_last ((p ++ e) :: rest) p s hchain hlast
    obtain ⟨es, hes⟩ := hps
    have hwfp : ∀ m ∈ (splitNl p).dropLast, trimLine m = [] → m = [] := by
      intro m hm
      apply hwfs
      rw [← hes]
      exact dropLast_splitNl_mono p es m hm
    have hgp : GoodCut p := by
      apply hgood p
      rw [List.dropLast_cons_of_ne_nil (List.cons_ne_nil _ _)]
      exact List.mem_cons_self _ _
    obtain ⟨hstc, hevc⟩ := handleEvent_compose url st0 p e h0 hgp hwfp
    have hIH : handleChunks url st0 ((p ++ e) :: rest) =
        handleEvent url st0 s := by
      apply ih st0 (p ++ e) h0 hchain.2 (by simpa using hlast)
      intro x hx
      apply hgood x
      rw [List.dropLast_cons_of_ne_nil (List.cons_ne_nil _ _)]
      exact List.mem_cons_of_mem _ hx
    rw [handleChunks_cons, handleChunks_cons, hstc]
    rw [handleChunks_cons] at hIH
    rw [← hIH]
    rw [← List.append_assoc, hevc, ← hstc]

/-- C1 counterexample: the well-formed payload `"data: a\n\n"` delivered as
the cumulative prefixes `"data: a\n"`, `"data: a\n\n"` dispatches the
`message` event twice, while a single `_handleEvent` call on the whole
payload dispatches it once: the loop treats the empty split-segment after a
trailing lone `"\n"` as a record terminator and dispatches, but
`lastIndexProcessed` only advances past `"\n\n"`, so the next call re-parses
and re-dispatches the same record. -/
theorem chunking_counterexample :
    WellFormedSSE ("data: a\n\n".toList) ∧
    PrefixChain ["data: a\n".toList, "data: a\n\n".toList] ∧
    ["data: a\n".toList, "data: a\n\n".toList].getLast? =
      some ("data: a\n\n".toList) ∧
    (handleChunks "u".toList (freshPState none none 5000)
        ["data: a\n".toList, "data: a\n\n".toList]).2 =
      [("message".toList,
        ESEvent.sse ("message".toList) ("a".toList) none ("u".toList)),
       ("message".toList,
        ESEvent.sse ("message".toList) ("a".toList) none ("u".toList))] ∧
    (handleEvent "u".toList (freshPState none none 5000)
        ("data: a\n\n".toList)).2 =
      [("message".toList,
        ESEvent.sse ("message".toList) ("a".toList) none ("u".toList))] :=
  ⟨by decide, ⟨by decide, trivial⟩, by decide, by decide, by decide⟩

/-- C1 (amended): chunking-invariance holds for cumulative deliveries whose
intermediate cut points are safe. For a well-formed SSE payload `s` (no line
trims to whitespace-only unless it is empty) delivered as a `<+:`-increasing
chain of cumulative prefixes ending in `s`, where every intermediate prefix
is empty, ends exactly at a `"\n\n"` record terminator, or has an
unterminated last line that does not trim to empty, the chunked calls to
`_handleEvent` (state threaded between calls) produce exactly the same final
parser state and the same ordered dispatch sequence as one single call on
the whole payload. -/
theorem chunking_invariance (url : List Char) (st0 : PState) (s : List Char)
    (ps : List (List Char)) (h0 : st0.lastIndexProcessed = 0)
    (hwf : WellFormedSSE s) (hchain : PrefixChain ps)
    (hlast : ps.getLast? = some s)
    (hgood : ∀ p ∈ ps.dropLast, GoodCut p) :
    handleChunks url st0 ps = handleEvent url st0 s := by
  cases ps with
  | nil => simp at hlast
  | cons p rest =>
    exact handleChunks_prefix_chain url s
      (fun m hm ht => hwf m (List.mem_of_mem_dropLast hm) ht)
      rest st0 p h0 hchain hlast hgood

/-- C1 witness: the payload `"data: a\nid: 1\n\ndata: b\n\n"` cut inside
the `id: 1` field line (`"data: a\nid"`, then the whole payload) yields the
same final state and dispatches as one whole-payload call. -/
theorem chunking_invariance_witness :
    (freshPState none none 5000).lastIndexProcessed = 0 ∧
    WellFormedSSE ("data: a\nid: 1\n\ndata: b\n\n".toList) ∧
    PrefixChain ["data: a\nid".toList,
      "data: a\nid: 1\n\ndata: b\n\n".toList] ∧
    ["data: a\nid".toList, "data: a\nid: 1\n\ndata: b\n\n".toList].getLast? =
      some ("data: a\nid: 1\n\ndata: b\n\n".toList) ∧
    (∀ p ∈ (["data: a\nid".toList,
        "data: a\nid: 1\n\ndata: b\n\n".toList] :
        List (List Char)).dropLast, GoodCut p) ∧
    handleChunks "u".toList (freshPState none none 5000)
        ["data: a\nid".toList, "data: a\nid: 1\n\ndata: b\n\n".toList] =
      handleEvent "u".toList (freshPState none none 5000)
        ("data: a\nid: 1\n\ndata: b\n\n".toList) := by
  have hgood : ∀ p ∈ (["data: a\nid".toList,
      "data: a\nid: 1\n\ndata: b\n\n".toList] :
      List (List Char)).dropLast, GoodCut p := by
    intro p hp
    rw [show (["data: a\nid".toList,
        "data: a\nid: 1\n\ndata: b\n\n".toList] :
        List (List Char)).dropLast = ["data: a\nid".toList] from rfl,
      List.mem_singleton] at hp
    subst hp
    exact Or.inr (Or.inl (by decide))
  exact ⟨rfl, by decide, ⟨by decide, trivial⟩, by decide, hgood,
    chunking_invariance ("u".toList) (freshPState none none 5000)
      ("data: a\nid: 1\n\ndata: b\n\n".toList)
      ["data: a\nid".toList, "data: a\nid: 1\n\ndata: b\n\n".toList]
      rfl (by decide) ⟨by decide, trivial⟩ (by decide) hgood⟩

end RNSSE

